import Mathlib

/-
Verification of the interval-ranking encoder
`rank_tasks_with_circuit` from
`ortools/sat/samples/ranking_circuit_sample_sat.py`.

The encoder is shallowly embedded: CP-SAT variables are natural-number
indices allocated by a counter in `Model`, boolean literals are a positive
or negated variable, linear expressions are a tiny AST, and every
`model.Add(...)`, `model.AddImplication(...)`, `model.AddCircuit(...)`
call appends a `Constraint` to the model.  Python's in-place mutation of
the caller's model plus possible `IndexError` (when `durations`,
`presences` or `ranks` are shorter than `starts`) is embedded as
`Except Model`: `.ok m` is normal return with final model `m`, `.error m`
is an index error raised while the model already holds the constraints
posted so far.
-/

namespace RankingCircuit

/- A CP-SAT boolean literal: a boolean variable or its negation. -/
inductive Lit where
  | pos : Nat → Lit
  | neg : Nat → Lit
deriving DecidableEq, Repr

/- `presences[i].Not()` in the source. -/
def Lit.not : Lit → Lit
  | .pos v => .neg v
  | .neg v => .pos v

def Lit.varOf : Lit → Nat
  | .pos v => v
  | .neg v => v

/- Linear expressions as they appear in the posted constraints. -/
inductive LinExpr where
  | const : Int → LinExpr
  | var : Nat → LinExpr
  | add : LinExpr → LinExpr → LinExpr
deriving DecidableEq, Repr

/- `cp_model.ArcT`: (tail node, head node, literal). -/
abbrev ArcT := Nat × Nat × Lit

/- The constraint kinds posted by the encoder.  `linEq`/`linGe` carry the
enforcement literals installed by `OnlyEnforceIf`. -/
inductive Constraint where
  | linEq : LinExpr → LinExpr → List Lit → Constraint
  | linGe : LinExpr → LinExpr → List Lit → Constraint
  | implication : Lit → Lit → Constraint
  | circuit : List ArcT → Constraint
deriving DecidableEq, Repr

/- The shared `cp_model.CpModel` object: a fresh-variable counter and the
list of posted constraints, in posting order. -/
structure Model where
  numVars : Nat
  constraints : List Constraint
deriving DecidableEq, Repr

/- `model.NewBoolVar(...)`: returns the fresh variable's index. -/
def Model.newBoolVar (m : Model) : Nat × Model :=
  (m.numVars, { m with numVars := m.numVars + 1 })

/- `model.Add(...)` / `model.AddImplication(...)` / `model.AddCircuit(...)`. -/
def Model.addConstraint (m : Model) (c : Constraint) : Model :=
  { m with constraints := m.constraints ++ [c] }

/- One iteration of the inner `for j in all_tasks` loop of
`rank_tasks_with_circuit` (source lines 75-91), for fixed `i`. -/
def innerStep (starts : List Nat) (durations : List Int)
    (presences ranks : List Nat) (i j : Nat) (m : Model) (arcs : List ArcT) :
    Except Model (Model × List ArcT) :=
  if i = j then
    match presences[i]?, ranks[i]? with
    | some pres_i, some rank_i =>
      let arcs := arcs ++ [(i + 1, i + 1, (Lit.pos pres_i).not)]
      let m := m.addConstraint
        (.linEq (.var rank_i) (.const (-1)) [(Lit.pos pres_i).not])
      .ok (m, arcs)
    | _, _ => .error m
  else
    let (literal, m) := m.newBoolVar
    let arcs := arcs ++ [(i + 1, j + 1, Lit.pos literal)]
    match ranks[j]?, ranks[i]? with
    | some rank_j, some rank_i =>
      let m := m.addConstraint
        (.linEq (.var rank_j) (.add (.var rank_i) (.const 1)) [Lit.pos literal])
      match starts[j]?, starts[i]?, durations[i]? with
      | some start_j, some start_i, some dur_i =>
        let m := m.addConstraint
          (.linGe (.var start_j) (.add (.var start_i) (.const dur_i))
            [Lit.pos literal])
        .ok (m, arcs)
      | _, _, _ => .error m
    | _, _ => .error m

/- The inner `for j in all_tasks` loop. -/
def innerLoop (starts : List Nat) (durations : List Int)
    (presences ranks : List Nat) (i : Nat) (js : List Nat) (m : Model)
    (arcs : List ArcT) : Except Model (Model × List ArcT) :=
  match js with
  | [] => .ok (m, arcs)
  | j :: rest =>
    match innerStep starts durations presences ranks i j m arcs with
    | .error m => .error m
    | .ok (m, arcs) => innerLoop starts durations presences ranks i rest m arcs

/- One iteration of the outer `for i in all_tasks` loop
(source lines 61-91): the "first" literal and its two constraints, the
"last" literal, then the inner loop. -/
def outerStep (starts : List Nat) (durations : List Int)
    (presences ranks : List Nat) (i : Nat) (m : Model) (arcs : List ArcT) :
    Except Model (Model × List ArcT) :=
  let (start_lit, m) := m.newBoolVar
  let arcs := arcs ++ [(0, i + 1, Lit.pos start_lit)]
  match ranks[i]? with
  | none => .error m
  | some rank_i =>
    let m := m.addConstraint (.linEq (.var rank_i) (.const 0) [Lit.pos start_lit])
    match starts[i]? with
    | none => .error m
    | some start_i =>
      let m := m.addConstraint
        (.linEq (.var start_i) (.const 0) [Lit.pos start_lit])
      let (end_lit, m) := m.newBoolVar
      let arcs := arcs ++ [(i + 1, 0, Lit.pos end_lit)]
      innerLoop starts durations presences ranks i (List.range starts.length) m arcs

/- The outer `for i in all_tasks` loop. -/
def outerLoop (starts : List Nat) (durations : List Int)
    (presences ranks : List Nat) (idxs : List Nat) (m : Model)
    (arcs : List ArcT) : Except Model (Model × List ArcT) :=
  match idxs with
  | [] => .ok (m, arcs)
  | i :: rest =>
    match outerStep starts durations presences ranks i m arcs with
    | .error m => .error m
    | .ok (m, arcs) => outerLoop starts durations presences ranks rest m arcs

/- The `for i in all_tasks: model.AddImplication(empty, presences[i].Not())`
loop (source lines 97-98). -/
def emptyLoop (presences : List Nat) (idxs : List Nat) (empty : Nat)
    (m : Model) : Except Model Model :=
  match idxs with
  | [] => .ok m
  | i :: rest =>
    match presences[i]? with
    | none => .error m
    | some pres_i =>
      emptyLoop presences rest empty
        (m.addConstraint (.implication (Lit.pos empty) ((Lit.pos pres_i).not)))

/- `rank_tasks_with_circuit(model, starts, durations, presences, ranks)`
(source lines 23-101). -/
def rank_tasks_with_circuit (model : Model) (starts : List Nat)
    (durations : List Int) (presences ranks : List Nat) : Except Model Model :=
  let num_tasks := starts.length
  let all_tasks := List.range num_tasks
  match outerLoop starts durations presences ranks all_tasks model [] with
  | .error m => .error m
  | .ok (m, arcs) =>
    let (empty, m) := m.newBoolVar
    let arcs := arcs ++ [(0, 0, Lit.pos empty)]
    match emptyLoop presences all_tasks empty m with
    | .error m => .error m
    | .ok m => .ok (m.addConstraint (.circuit arcs))

/- Truth of a literal under an assignment of integer values to variables
(CP-SAT booleans take value 0 or 1; `Not` of a boolean is its 0 case). -/
def litHolds (σ : Nat → Int) : Lit → Prop
  | .pos v => σ v = 1
  | .neg v => σ v = 0

instance (σ : Nat → Int) (l : Lit) : Decidable (litHolds σ l) := by
  cases l <;> simp only [litHolds] <;> infer_instance

def LinExpr.eval (σ : Nat → Int) : LinExpr → Int
  | .const c => c
  | .var v => σ v
  | .add a b => a.eval σ + b.eval σ

/-- Modelled from the spec: the semantics of the solver's circuit
constraint (`model.AddCircuit`), whose implementation is not part of the
sources under verification.  Following spec section 4.1, a satisfying
selection of arcs picks exactly one outgoing and one incoming arc per node
appearing in the arc list (so the selected arcs are the graph of a
permutation `f` of the nodes, nodes without arcs being fixed), and the
selected non-self-loop arcs form a single simple cycle: any two
non-fixed nodes lie on a common orbit of `f`. -/
def circuitHolds (σ : Nat → Int) (arcs : List ArcT) : Prop :=
  ∃ f : Nat → Nat,
    Function.Bijective f ∧
    (∀ u : Nat, (∀ a ∈ arcs, a.1 ≠ u) → f u = u) ∧
    (∀ a ∈ arcs, (litHolds σ a.2.2 ↔ f a.1 = a.2.1)) ∧
    (∀ u v : Nat, f u ≠ u → f v ≠ v → ∃ k : Nat, f^[k] u = v)

/- Satisfaction of one posted constraint: an `OnlyEnforceIf` constraint
only binds when all its enforcement literals are true. -/
def constraintHolds (σ : Nat → Int) : Constraint → Prop
  | .linEq lhs rhs enf => (∀ l ∈ enf, litHolds σ l) → lhs.eval σ = rhs.eval σ
  | .linGe lhs rhs enf => (∀ l ∈ enf, litHolds σ l) → rhs.eval σ ≤ lhs.eval σ
  | .implication a b => litHolds σ a → litHolds σ b
  | .circuit arcs => circuitHolds σ arcs

/- A satisfying assignment of the model. -/
def Model.satisfiedBy (m : Model) (σ : Nat → Int) : Prop :=
  ∀ c ∈ m.constraints, constraintHolds σ c

/- `c` is a constraint conditioned on the literal `l` (an
`OnlyEnforceIf l` linear constraint, or an implication with antecedent
`l`). -/
def enforcedBy (l : Lit) : Constraint → Bool
  | .linEq _ _ enf => decide (enf = [l])
  | .linGe _ _ enf => decide (enf = [l])
  | .implication a _ => decide (a = l)
  | .circuit _ => false

/- Closed form of the encoder's output, proved equal to what
`rank_tasks_with_circuit` builds (`rank_tasks_spec` below).  `B` is the
variable counter of the model at entry; task `i`'s block allocates
`n + 1` fresh booleans starting at `B + i * (n + 1)`: the "first"
literal, the "last" literal, and one literal per arc to another task. -/
def arcLitVar (B n i j : Nat) : Nat :=
  B + i * (n + 1) + (if j < i then 2 + j else 1 + j)

def blockCons (starts : List Nat) (durations : List Int)
    (presences ranks : List Nat) (B i : Nat) : List Constraint :=
  let n := starts.length
  let b := B + i * (n + 1)
  [ .linEq (.var (ranks.getD i 0)) (.const 0) [Lit.pos b],
    .linEq (.var (starts.getD i 0)) (.const 0) [Lit.pos b] ]
  ++ (List.range n).flatMap (fun j =>
    if j = i then
      [ .linEq (.var (ranks.getD i 0)) (.const (-1))
          [(Lit.pos (presences.getD i 0)).not] ]
    else
      [ .linEq (.var (ranks.getD j 0)) (.add (.var (ranks.getD i 0)) (.const 1))
          [Lit.pos (arcLitVar B n i j)],
        .linGe (.var (starts.getD j 0))
          (.add (.var (starts.getD i 0)) (.const (durations.getD i 0)))
          [Lit.pos (arcLitVar B n i j)] ])

def blockArcs (presences : List Nat) (n B i : Nat) : List ArcT :=
  let b := B + i * (n + 1)
  (0, i + 1, Lit.pos b) :: (i + 1, 0, Lit.pos (b + 1)) ::
  (List.range n).map (fun j =>
    if j = i then (i + 1, i + 1, (Lit.pos (presences.getD i 0)).not)
    else (i + 1, j + 1, Lit.pos (arcLitVar B n i j)))

def specArcs (presences : List Nat) (n B : Nat) : List ArcT :=
  (List.range n).flatMap (blockArcs presences n B)
    ++ [(0, 0, Lit.pos (B + n * (n + 1)))]

def specCons (starts : List Nat) (durations : List Int)
    (presences ranks : List Nat) (B : Nat) : List Constraint :=
  let n := starts.length
  (List.range n).flatMap (blockCons starts durations presences ranks B)
  ++ (List.range n).map (fun i =>
       .implication (Lit.pos (B + n * (n + 1)))
         ((Lit.pos (presences.getD i 0)).not))
  ++ [ .circuit (specArcs presences n B) ]

/- Concrete assignment and arc selection used to instantiate the
semantic theorems on a one-task instance (variables: start 0,
presence 1, rank 2; fresh literals 3, 4, 5): the task is present,
starts at 0 and has rank 0; the cycle is depot -> task -> depot. -/
def sigW : Nat → Int := fun v => if v = 1 ∨ v = 3 ∨ v = 4 then 1 else 0

def funW : Nat → Nat := fun u => if u = 0 then 1 else if u = 1 then 0 else u

/- Generic list helpers used by the characterization proofs. -/

theorem flatMap_congr_mem {α β : Type} (l : List α) (f g : α → List β)
    (h : ∀ a ∈ l, f a = g a) : l.flatMap f = l.flatMap g := by
  induction l with
  | nil => rfl
  | cons a t ih =>
    simp only [List.flatMap_cons, h a (by simp),
      ih (fun x hx => h x (by simp [hx]))]

theorem map_congr_mem {α β : Type} (l : List α) (f g : α → β)
    (h : ∀ a ∈ l, f a = g a) : l.map f = l.map g := by
  induction l with
  | nil => rfl
  | cons a t ih =>
    simp only [List.map_cons, h a (by simp),
      ih (fun x hx => h x (by simp [hx]))]

/- Appending loop index lists splits a loop run in two. -/

theorem innerLoop_append (s : List Nat) (d : List Int) (p r : List Nat)
    (i : Nat) (js₁ js₂ : List Nat) (m : Model) (arcs : List ArcT) :
    innerLoop s d p r i (js₁ ++ js₂) m arcs =
      match innerLoop s d p r i js₁ m arcs with
      | .error m => .error m
      | .ok (m, arcs) => innerLoop s d p r i js₂ m arcs := by
  induction js₁ generalizing m arcs with
  | nil => simp [innerLoop]
  | cons j t ih =>
    simp only [List.cons_append, innerLoop]
    cases innerStep s d p r i j m arcs with
    | error m => rfl
    | ok st =>
      cases st with
      | mk m arcs => exact ih m arcs

theorem outerLoop_append (s : List Nat) (d : List Int) (p r : List Nat)
    (idxs₁ idxs₂ : List Nat) (m : Model) (arcs : List ArcT) :
    outerLoop s d p r (idxs₁ ++ idxs₂) m arcs =
      match outerLoop s d p r idxs₁ m arcs with
      | .error m => .error m
      | .ok (m, arcs) => outerLoop s d p r idxs₂ m arcs := by
  induction idxs₁ generalizing m arcs with
  | nil => simp [outerLoop]
  | cons i t ih =>
    simp only [List.cons_append, outerLoop]
    cases outerStep s d p r i m arcs with
    | error m => rfl
    | ok st =>
      cases st with
      | mk m arcs => exact ih m arcs

/- One inner iteration, in-bounds, `j = i`: the self-loop arc and the
`ranks[i] == -1` constraint. -/
theorem innerStep_self (s : List Nat) (d : List Int) (p r : List Nat)
    (i : Nat) (m : Model) (arcs : List ArcT)
    (hp : i < p.length) (hr : i < r.length) :
    innerStep s d p r i i m arcs =
      .ok (m.addConstraint (.linEq (.var (r.getD i 0)) (.const (-1))
             [(Lit.pos (p.getD i 0)).not]),
           arcs ++ [(i + 1, i + 1, (Lit.pos (p.getD i 0)).not)]) := by
  simp [innerStep, List.getElem?_eq_getElem hp, List.getElem?_eq_getElem hr,
    List.getD_eq_getElem p 0 hp, List.getD_eq_getElem r 0 hr]

/- One inner iteration, in-bounds, `j ≠ i`: a fresh successor literal, its
arc, and the two conditioned constraints. -/
theorem innerStep_ne (s : List Nat) (d : List Int) (p r : List Nat)
    (i j : Nat) (m : Model) (arcs : List ArcT) (hij : i ≠ j)
    (hsi : i < s.length) (hsj : j < s.length) (hdi : i < d.length)
    (hri : i < r.length) (hrj : j < r.length) :
    innerStep s d p r i j m arcs =
      .ok (⟨m.numVars + 1, m.constraints ++
            [.linEq (.var (r.getD j 0)) (.add (.var (r.getD i 0)) (.const 1))
               [Lit.pos m.numVars],
             .linGe (.var (s.getD j 0))
               (.add (.var (s.getD i 0)) (.const (d.getD i 0)))
               [Lit.pos m.numVars]]⟩,
           arcs ++ [(i + 1, j + 1, Lit.pos m.numVars)]) := by
  simp [innerStep, hij, Model.newBoolVar, Model.addConstraint,
    List.getElem?_eq_getElem hsi, List.getElem?_eq_getElem hsj,
    List.getElem?_eq_getElem hdi, List.getElem?_eq_getElem hri,
    List.getElem?_eq_getElem hrj,
    List.getD_eq_getElem s 0 hsi, List.getD_eq_getElem s 0 hsj,
    List.getD_eq_getElem d 0 hdi, List.getD_eq_getElem r 0 hri,
    List.getD_eq_getElem r 0 hrj]

/- The inner loop over `range k`, started with variable counter `v`:
allocates one literal per non-`i` index, posting the corresponding
constraints and arcs in order. -/
theorem innerLoop_range (s : List Nat) (d : List Int) (p r : List Nat)
    (i : Nat) (hi : i < s.length) (hd : s.length ≤ d.length)
    (hp : s.length ≤ p.length) (hr : s.length ≤ r.length)
    (k : Nat) (hk : k ≤ s.length) (v : Nat) (C : List Constraint)
    (arcs : List ArcT) :
    innerLoop s d p r i (List.range k) ⟨v, C⟩ arcs =
      .ok (⟨v + (k - if i < k then 1 else 0),
        C ++ (List.range k).flatMap (fun j =>
          if j = i then
            [ Constraint.linEq (.var (r.getD i 0)) (.const (-1))
                [(Lit.pos (p.getD i 0)).not] ]
          else
            [ Constraint.linEq (.var (r.getD j 0))
                (.add (.var (r.getD i 0)) (.const 1))
                [Lit.pos (v + (j - if i < j then 1 else 0))],
              Constraint.linGe (.var (s.getD j 0))
                (.add (.var (s.getD i 0)) (.const (d.getD i 0)))
                [Lit.pos (v + (j - if i < j then 1 else 0))] ])⟩,
        arcs ++ (List.range k).map (fun j =>
          if j = i then (i + 1, i + 1, (Lit.pos (p.getD i 0)).not)
          else (i + 1, j + 1, Lit.pos (v + (j - if i < j then 1 else 0))))) := by
  induction k with
  | zero => simp [innerLoop]
  | succ k ih =>
    have hk' : k ≤ s.length := Nat.le_of_succ_le hk
    rw [List.range_succ, innerLoop_append, ih hk']
    by_cases hki : k = i
    · subst hki
      have hpk : k < p.length := lt_of_lt_of_le hi hp
      have hrk : k < r.length := lt_of_lt_of_le hi hr
      simp only [innerLoop, innerStep_self s d p r k _ _ hpk hrk,
        Model.addConstraint]
      have h1 : k + 1 - (if k < k + 1 then 1 else 0) =
          k - (if k < k then 1 else 0) := by simp
      rw [h1]
      simp [List.flatMap_append, List.map_append, List.range_succ]
    · have hki' : i ≠ k := fun h => hki h.symm
      have hsk : k < s.length := lt_of_lt_of_le (Nat.lt_succ_self k) hk
      have hdi : i < d.length := lt_of_lt_of_le hi hd
      have hri : i < r.length := lt_of_lt_of_le hi hr
      have hrk : k < r.length := lt_of_lt_of_le hsk hr
      simp only [innerLoop,
        innerStep_ne s d p r i k _ _ hki' hi hsk hdi hri hrk]
      have h1 : v + (k - if i < k then 1 else 0) + 1 =
          v + (k + 1 - if i < k + 1 then 1 else 0) := by
        rcases Nat.lt_or_ge i k with h2 | h2
        · rw [if_pos h2, if_pos (Nat.lt_succ_of_lt h2)]
          omega
        · rw [if_neg (Nat.not_lt.mpr h2), if_neg (by omega)]
          omega
      rw [h1]
      simp [List.flatMap_append, List.map_append, List.range_succ, hki,
        List.append_assoc]

/- One outer iteration at block base counter `B + i * (n + 1)` produces
exactly the `blockCons`/`blockArcs` segments. -/
theorem outerStep_spec (s : List Nat) (d : List Int) (p r : List Nat)
    (i : Nat) (hi : i < s.length) (hd : s.length ≤ d.length)
    (hp : s.length ≤ p.length) (hr : s.length ≤ r.length)
    (B : Nat) (C : List Constraint) (arcs : List ArcT) :
    outerStep s d p r i ⟨B + i * (s.length + 1), C⟩ arcs =
      .ok (⟨B + (i + 1) * (s.length + 1), C ++ blockCons s d p r B i⟩,
           arcs ++ blockArcs p s.length B i) := by
  have hri : i < r.length := lt_of_lt_of_le hi hr
  simp only [outerStep, Model.newBoolVar, Model.addConstraint,
    List.getElem?_eq_getElem hri, List.getElem?_eq_getElem hi]
  rw [innerLoop_range s d p r i hi hd hp hr s.length le_rfl]
  have hb : ∀ j : Nat, j < s.length → j ≠ i →
      B + i * (s.length + 1) + 1 + 1 + (j - if i < j then 1 else 0) =
        arcLitVar B s.length i j := by
    intro j hj hji
    unfold arcLitVar
    rcases Nat.lt_or_ge j i with h1 | h1
    · rw [if_neg (by omega), if_pos h1]
      omega
    · have h2 : i < j := by omega
      rw [if_pos h2, if_neg (by omega)]
      omega
  have hfun : (List.range s.length).flatMap (fun j =>
      if j = i then
        [ Constraint.linEq (.var (r.getD i 0)) (.const (-1))
            [(Lit.pos (p.getD i 0)).not] ]
      else
        [ Constraint.linEq (.var (r.getD j 0))
            (.add (.var (r.getD i 0)) (.const 1))
            [Lit.pos (B + i * (s.length + 1) + 1 + 1 +
              (j - if i < j then 1 else 0))],
          Constraint.linGe (.var (s.getD j 0))
            (.add (.var (s.getD i 0)) (.const (d.getD i 0)))
            [Lit.pos (B + i * (s.length + 1) + 1 + 1 +
              (j - if i < j then 1 else 0))] ]) =
      (List.range s.length).flatMap (fun j =>
      if j = i then
        [ Constraint.linEq (.var (r.getD i 0)) (.const (-1))
            [(Lit.pos (p.getD i 0)).not] ]
      else
        [ Constraint.linEq (.var (r.getD j 0))
            (.add (.var (r.getD i 0)) (.const 1))
            [Lit.pos (arcLitVar B s.length i j)],
          Constraint.linGe (.var (s.getD j 0))
            (.add (.var (s.getD i 0)) (.const (d.getD i 0)))
            [Lit.pos (arcLitVar B s.length i j)] ]) := by
    apply flatMap_congr_mem
    intro j hj
    rcases eq_or_ne j i with hji | hji
    · simp [hji]
    · rw [if_neg hji, if_neg hji, hb j (List.mem_range.mp hj) hji]
  have hfunA : (List.range s.length).map (fun j =>
      if j = i then (i + 1, i + 1, (Lit.pos (p.getD i 0)).not)
      else (i + 1, j + 1,
        Lit.pos (B + i * (s.length + 1) + 1 + 1 +
          (j - if i < j then 1 else 0)))) =
      (List.range s.length).map (fun j =>
      if j = i then (i + 1, i + 1, (Lit.pos (p.getD i 0)).not)
      else (i + 1, j + 1, Lit.pos (arcLitVar B s.length i j))) := by
    apply map_congr_mem
    intro j hj
    rcases eq_or_ne j i with hji | hji
    · simp [hji]
    · rw [if_neg hji, if_neg hji, hb j (List.mem_range.mp hj) hji]
  have hnum : B + i * (s.length + 1) + 1 + 1 +
      (s.length - if i < s.length then 1 else 0) =
      B + (i + 1) * (s.length + 1) := by
    rw [if_pos hi]
    have h2 : (i + 1) * (s.length + 1) = i * (s.length + 1) + (s.length + 1) := by
      ring
    omega
  rw [hfun, hfunA, hnum]
  have hgr : r.getD i 0 = r[i] := List.getD_eq_getElem r 0 hri
  have hgs : s.getD i 0 = s[i] := List.getD_eq_getElem s 0 hi
  simp only [blockCons, blockArcs, hgr, hgs, List.append_assoc,
    List.cons_append, List.singleton_append, List.nil_append]

theorem outerLoop_range (s : List Nat) (d : List Int) (p r : List Nat)
    (hd : s.length ≤ d.length) (hp : s.length ≤ p.length)
    (hr : s.length ≤ r.length) (k : Nat) (hk : k ≤ s.length)
    (B : Nat) (C : List Constraint) (arcs : List ArcT) :
    outerLoop s d p r (List.range k) ⟨B, C⟩ arcs =
      .ok (⟨B + k * (s.length + 1),
            C ++ (List.range k).flatMap (blockCons s d p r B)⟩,
           arcs ++ (List.range k).flatMap (blockArcs p s.length B)) := by
  induction k with
  | zero => simp [outerLoop]
  | succ k ih =>
    have hk' : k ≤ s.length := Nat.le_of_succ_le hk
    rw [List.range_succ, outerLoop_append, ih hk']
    simp only [outerLoop, outerStep_spec s d p r k (by omega) hd hp hr B]
    simp [List.flatMap_append, List.range_succ, List.append_assoc]

theorem emptyLoop_spec (p : List Nat) (js : List Nat) (e : Nat) (m : Model)
    (hjs : ∀ j ∈ js, j < p.length) :
    emptyLoop p js e m =
      .ok ⟨m.numVars, m.constraints ++ js.map (fun i =>
        Constraint.implication (Lit.pos e) ((Lit.pos (p.getD i 0)).not))⟩ := by
  induction js generalizing m with
  | nil => simp [emptyLoop]
  | cons j t ih =>
    have hj : j < p.length := hjs j (by simp)
    simp only [emptyLoop, List.getElem?_eq_getElem hj]
    rw [ih _ (fun x hx => hjs x (by simp [hx]))]
    have hgd : p.getD j 0 = p[j] := List.getD_eq_getElem p 0 hj
    simp only [Model.addConstraint, hgd, List.map_cons, List.append_assoc,
      List.cons_append, List.nil_append]

theorem rank_tasks_spec (m₀ : Model) (s : List Nat) (d : List Int)
    (p r : List Nat) (hd : s.length ≤ d.length) (hp : s.length ≤ p.length)
    (hr : s.length ≤ r.length) :
    rank_tasks_with_circuit m₀ s d p r =
      .ok ⟨m₀.numVars + s.length * (s.length + 1) + 1,
           m₀.constraints ++ specCons s d p r m₀.numVars⟩ := by
  obtain ⟨B, C⟩ := m₀
  simp only [rank_tasks_with_circuit]
  rw [outerLoop_range s d p r hd hp hr s.length le_rfl B C []]
  simp only [Model.newBoolVar, Model.addConstraint]
  rw [emptyLoop_spec p (List.range s.length) (B + s.length * (s.length + 1))
    _ (fun x hx => lt_of_lt_of_le (List.mem_range.mp hx) hp)]
  simp [specCons, specArcs, Model.addConstraint, List.append_assoc]


/- Arithmetic facts about the allocated literal indices. -/

theorem arcLitVar_off (B n i j : Nat) (hi : i < n) (hj : j < n) (hij : i ≠ j) :
    ∃ o, 2 ≤ o ∧ o ≤ n ∧ arcLitVar B n i j = B + i * (n + 1) + o := by
  unfold arcLitVar
  rcases Nat.lt_or_ge j i with h1 | h1
  · exact ⟨2 + j, by omega, by omega, by rw [if_pos h1]⟩
  · have h2 : i < j := by omega
    exact ⟨1 + j, by omega, by omega, by rw [if_neg (by omega)]⟩

theorem blockVar_inj (B n i o i' o' : Nat) (hi : i < n) (hi' : i' < n)
    (ho : o ≤ n) (ho' : o' ≤ n)
    (h : B + i * (n + 1) + o = B + i' * (n + 1) + o') : i = i' ∧ o = o' := by
  rcases Nat.lt_trichotomy i i' with h1 | h1 | h1
  · exfalso
    have h2 : (i + 1) * (n + 1) ≤ i' * (n + 1) :=
      Nat.mul_le_mul_right (n + 1) (by omega)
    have h3 : (i + 1) * (n + 1) = i * (n + 1) + (n + 1) := by ring
    omega
  · subst h1
    exact ⟨rfl, by omega⟩
  · exfalso
    have h2 : (i' + 1) * (n + 1) ≤ i * (n + 1) :=
      Nat.mul_le_mul_right (n + 1) (by omega)
    have h3 : (i' + 1) * (n + 1) = i' * (n + 1) + (n + 1) := by ring
    omega

theorem emptyVar_ne_blockVar (B n i o : Nat) (hi : i < n) (ho : o ≤ n) :
    B + n * (n + 1) ≠ B + i * (n + 1) + o := by
  have h2 : (i + 1) * (n + 1) ≤ n * (n + 1) :=
    Nat.mul_le_mul_right (n + 1) (by omega)
  have h3 : (i + 1) * (n + 1) = i * (n + 1) + (n + 1) := by ring
  omega

theorem arcLitVar_inj_right (B n i j j' : Nat) (hj : j < n) (hj' : j' < n)
    (hij : i ≠ j) (hij' : i ≠ j')
    (h : arcLitVar B n i j = arcLitVar B n i j') : j = j' := by
  unfold arcLitVar at h
  rcases Nat.lt_or_ge j i with h1 | h1 <;>
    rcases Nat.lt_or_ge j' i with h2 | h2
  · rw [if_pos h1, if_pos h2] at h
    omega
  · rw [if_pos h1, if_neg (by omega)] at h
    omega
  · rw [if_neg (by omega), if_pos h2] at h
    omega
  · rw [if_neg (by omega), if_neg (by omega)] at h
    omega

/- Generic single-contributor list computations. -/

theorem flatMap_single {β : Type} (l : List Nat) (f : Nat → List β) (j₀ : Nat)
    (h1 : l.count j₀ = 1) (h0 : ∀ j ∈ l, j ≠ j₀ → f j = []) :
    l.flatMap f = f j₀ := by
  induction l with
  | nil => simp at h1
  | cons a t ih =>
    rcases eq_or_ne a j₀ with rfl | ha
    · rw [List.count_cons_self] at h1
      have ht : t.count a = 0 := by omega
      have : t.flatMap f = [] := by
        apply List.flatMap_eq_nil_iff.mpr
        intro j hj
        exact h0 j (by simp [hj])
          (fun hja => by rw [hja] at hj; simp [List.count_eq_zero.mp ht] at hj)
      simp [this]
    · rw [List.count_cons_of_ne (by omega) ] at h1
      rw [List.flatMap_cons, h0 a (by simp) ha, List.nil_append]
      exact ih h1 (fun j hj => h0 j (by simp [hj]))

theorem filter_eq_nil_mem {β : Type} (l : List β) (q : β → Bool)
    (h : ∀ a ∈ l, q a = false) : l.filter q = [] := by
  induction l with
  | nil => rfl
  | cons a t ih =>
    rw [List.filter_cons, h a (by simp)]
    simp only [Bool.false_eq_true, if_false]
    exact ih (fun x hx => h x (by simp [hx]))

theorem filter_flatMap_comm {β : Type} (l : List Nat) (f : Nat → List β)
    (q : β → Bool) :
    (l.flatMap f).filter q = l.flatMap (fun a => (f a).filter q) := by
  induction l with
  | nil => rfl
  | cons a t ih => simp [List.flatMap_cons, List.filter_append, ih]

theorem filter_range_single (n : Nat) (q : Nat → Bool) (u : Nat) (hu : u < n)
    (hq : ∀ j, j < n → (q j = true ↔ j = u)) :
    (List.range n).filter q = [u] := by
  induction n with
  | zero => omega
  | succ n ih =>
    rw [List.range_succ, List.filter_append]
    rcases Nat.lt_or_ge u n with h1 | h1
    · rw [ih h1 (fun j hj => hq j (by omega))]
      have : q n = false := by
        rcases Bool.eq_false_or_eq_true (q n) with h | h
        · exact absurd ((hq n (by omega)).mp h) (by omega)
        · exact h
      simp [this]
    · have hun : u = n := by omega
      subst hun
      have : (List.range u).filter q = [] := by
        apply filter_eq_nil_mem
        intro a ha
        have haa : a < u := List.mem_range.mp ha
        rcases Bool.eq_false_or_eq_true (q a) with h | h
        · exact absurd ((hq a (by omega)).mp h) (by omega)
        · exact h
      simp [this, (hq u (by omega)).mpr rfl]


/- Membership of the individual arcs in the collected arc set. -/

theorem mem_specArcs_start (p : List Nat) (n B i : Nat) (hi : i < n) :
    (0, i + 1, Lit.pos (B + i * (n + 1))) ∈ specArcs p n B := by
  apply List.mem_append_left
  apply List.mem_flatMap.mpr
  exact ⟨i, List.mem_range.mpr hi, by simp [blockArcs]⟩

theorem mem_specArcs_end (p : List Nat) (n B i : Nat) (hi : i < n) :
    (i + 1, 0, Lit.pos (B + i * (n + 1) + 1)) ∈ specArcs p n B := by
  apply List.mem_append_left
  apply List.mem_flatMap.mpr
  exact ⟨i, List.mem_range.mpr hi, by simp [blockArcs]⟩

theorem mem_specArcs_self (p : List Nat) (n B i : Nat) (hi : i < n) :
    (i + 1, i + 1, (Lit.pos (p.getD i 0)).not) ∈ specArcs p n B := by
  apply List.mem_append_left
  apply List.mem_flatMap.mpr
  refine ⟨i, List.mem_range.mpr hi, ?_⟩
  simp only [blockArcs]
  apply List.mem_cons_of_mem
  apply List.mem_cons_of_mem
  apply List.mem_map.mpr
  exact ⟨i, List.mem_range.mpr hi, by simp⟩

theorem mem_specArcs_succ (p : List Nat) (n B i j : Nat) (hi : i < n)
    (hj : j < n) (hij : i ≠ j) :
    (i + 1, j + 1, Lit.pos (arcLitVar B n i j)) ∈ specArcs p n B := by
  apply List.mem_append_left
  apply List.mem_flatMap.mpr
  refine ⟨i, List.mem_range.mpr hi, ?_⟩
  simp only [blockArcs]
  apply List.mem_cons_of_mem
  apply List.mem_cons_of_mem
  apply List.mem_map.mpr
  refine ⟨j, List.mem_range.mpr hj, ?_⟩
  rw [if_neg (fun h => hij h.symm)]

theorem mem_specArcs_empty (p : List Nat) (n B : Nat) :
    (0, 0, Lit.pos (B + n * (n + 1))) ∈ specArcs p n B := by
  apply List.mem_append_right
  simp

/- Every arc's endpoints lie in `0..n`. -/
theorem specArcs_nodes_le (p : List Nat) (n B : Nat) :
    ∀ a ∈ specArcs p n B, a.1 ≤ n ∧ a.2.1 ≤ n := by
  intro a ha
  rcases List.mem_append.mp ha with h | h
  · obtain ⟨i, hi, hmem⟩ := List.mem_flatMap.mp h
    have hi' : i < n := List.mem_range.mp hi
    simp only [blockArcs, List.mem_cons] at hmem
    rcases hmem with rfl | hmem
    · exact ⟨by dsimp only; omega, by dsimp only; omega⟩
    rcases hmem with rfl | hmem
    · exact ⟨by dsimp only; omega, by dsimp only; omega⟩
    obtain ⟨j, hj, hja⟩ := List.mem_map.mp hmem
    have hj' : j < n := List.mem_range.mp hj
    rcases eq_or_ne j i with rfl | hji
    · rw [if_pos rfl] at hja
      rw [← hja]
      exact ⟨by dsimp only; omega, by dsimp only; omega⟩
    · rw [if_neg hji] at hja
      rw [← hja]
      exact ⟨by dsimp only; omega, by dsimp only; omega⟩
  · simp only [List.mem_singleton] at h
    rw [h]
    exact ⟨by dsimp only; omega, by dsimp only; omega⟩

/- Membership of the individual constraints in the posted constraint set. -/

theorem mem_specCons_rank0 (s : List Nat) (d : List Int) (p r : List Nat)
    (B i : Nat) (hi : i < s.length) :
    Constraint.linEq (.var (r.getD i 0)) (.const 0)
        [Lit.pos (B + i * (s.length + 1))] ∈ specCons s d p r B := by
  apply List.mem_append_left
  apply List.mem_append_left
  apply List.mem_flatMap.mpr
  exact ⟨i, List.mem_range.mpr hi, by simp [blockCons]⟩

theorem mem_specCons_start0 (s : List Nat) (d : List Int) (p r : List Nat)
    (B i : Nat) (hi : i < s.length) :
    Constraint.linEq (.var (s.getD i 0)) (.const 0)
        [Lit.pos (B + i * (s.length + 1))] ∈ specCons s d p r B := by
  apply List.mem_append_left
  apply List.mem_append_left
  apply List.mem_flatMap.mpr
  exact ⟨i, List.mem_range.mpr hi, by simp [blockCons]⟩

theorem mem_specCons_self (s : List Nat) (d : List Int) (p r : List Nat)
    (B i : Nat) (hi : i < s.length) :
    Constraint.linEq (.var (r.getD i 0)) (.const (-1))
        [(Lit.pos (p.getD i 0)).not] ∈ specCons s d p r B := by
  apply List.mem_append_left
  apply List.mem_append_left
  apply List.mem_flatMap.mpr
  refine ⟨i, List.mem_range.mpr hi, ?_⟩
  simp only [blockCons]
  apply List.mem_cons_of_mem
  apply List.mem_cons_of_mem
  apply List.mem_flatMap.mpr
  exact ⟨i, List.mem_range.mpr hi, by simp⟩

theorem mem_specCons_succ_eq (s : List Nat) (d : List Int) (p r : List Nat)
    (B i j : Nat) (hi : i < s.length) (hj : j < s.length) (hij : i ≠ j) :
    Constraint.linEq (.var (r.getD j 0)) (.add (.var (r.getD i 0)) (.const 1))
        [Lit.pos (arcLitVar B s.length i j)] ∈ specCons s d p r B := by
  apply List.mem_append_left
  apply List.mem_append_left
  apply List.mem_flatMap.mpr
  refine ⟨i, List.mem_range.mpr hi, ?_⟩
  simp only [blockCons]
  apply List.mem_cons_of_mem
  apply List.mem_cons_of_mem
  apply List.mem_flatMap.mpr
  refine ⟨j, List.mem_range.mpr hj, ?_⟩
  rw [if_neg (fun h => hij h.symm)]
  simp

theorem mem_specCons_succ_ge (s : List Nat) (d : List Int) (p r : List Nat)
    (B i j : Nat) (hi : i < s.length) (hj : j < s.length) (hij : i ≠ j) :
    Constraint.linGe (.var (s.getD j 0))
        (.add (.var (s.getD i 0)) (.const (d.getD i 0)))
        [Lit.pos (arcLitVar B s.length i j)] ∈ specCons s d p r B := by
  apply List.mem_append_left
  apply List.mem_append_left
  apply List.mem_flatMap.mpr
  refine ⟨i, List.mem_range.mpr hi, ?_⟩
  simp only [blockCons]
  apply List.mem_cons_of_mem
  apply List.mem_cons_of_mem
  apply List.mem_flatMap.mpr
  refine ⟨j, List.mem_range.mpr hj, ?_⟩
  rw [if_neg (fun h => hij h.symm)]
  simp

theorem mem_specCons_impl (s : List Nat) (d : List Int) (p r : List Nat)
    (B i : Nat) (hi : i < s.length) :
    Constraint.implication (Lit.pos (B + s.length * (s.length + 1)))
        ((Lit.pos (p.getD i 0)).not) ∈ specCons s d p r B := by
  apply List.mem_append_left
  apply List.mem_append_right
  apply List.mem_map.mpr
  exact ⟨i, List.mem_range.mpr hi, rfl⟩

theorem mem_specCons_circuit (s : List Nat) (d : List Int) (p r : List Nat)
    (B : Nat) :
    Constraint.circuit (specArcs p s.length B) ∈ specCons s d p r B := by
  apply List.mem_append_right
  simp

theorem specCons_getLast (s : List Nat) (d : List Int) (p r : List Nat)
    (B : Nat) (C : List Constraint) :
    (C ++ specCons s d p r B).getLast? =
      some (Constraint.circuit (specArcs p s.length B)) := by
  rw [List.getLast?_append_of_ne_nil C (by simp [specCons])]
  show ((List.range s.length).flatMap (blockCons s d p r B) ++
      List.map (fun i => Constraint.implication
        (Lit.pos (B + s.length * (s.length + 1)))
        ((Lit.pos (p.getD i 0)).not)) (List.range s.length) ++
      [Constraint.circuit (specArcs p s.length B)]).getLast? = _
  rw [List.getLast?_append_of_ne_nil _ (by simp)]
  rfl


/- Shape of the enforcement literals inside one task block. -/
theorem blockCons_cases (s : List Nat) (d : List Int) (p r : List Nat)
    (B i' : Nat) (hi' : i' < s.length) (c : Constraint)
    (hc : c ∈ blockCons s d p r B i') :
    (∃ o, o ≤ s.length ∧ ∃ e1 e2,
      (c = Constraint.linEq e1 e2 [Lit.pos (B + i' * (s.length + 1) + o)] ∨
       c = Constraint.linGe e1 e2 [Lit.pos (B + i' * (s.length + 1) + o)])) ∨
    c = Constraint.linEq (.var (r.getD i' 0)) (.const (-1))
          [(Lit.pos (p.getD i' 0)).not] := by
  simp only [blockCons, List.mem_append, List.mem_cons,
    List.not_mem_nil, or_false] at hc
  rcases hc with (rfl | rfl) | hc
  · exact Or.inl ⟨0, by omega, _, _, Or.inl rfl⟩
  · exact Or.inl ⟨0, by omega, _, _, Or.inl rfl⟩
  obtain ⟨j, hj, hcj⟩ := List.mem_flatMap.mp hc
  have hj' : j < s.length := List.mem_range.mp hj
  rcases eq_or_ne j i' with rfl | hji
  · rw [if_pos rfl] at hcj
    simp only [List.mem_singleton] at hcj
    exact Or.inr hcj
  · rw [if_neg hji] at hcj
    obtain ⟨o, ho2, hon, harc⟩ := arcLitVar_off B s.length i' j hi' hj'
      (fun h => hji h.symm)
    simp only [List.mem_cons, List.not_mem_nil, or_false] at hcj
    rcases hcj with rfl | rfl
    · exact Or.inl ⟨o, hon, _, _, Or.inl (by rw [harc])⟩
    · exact Or.inl ⟨o, hon, _, _, Or.inr (by rw [harc])⟩

/- A block contributes nothing to a `pos x` filter when `x` is not one of
its literals. -/
theorem filter_blockCons_of_ne (s : List Nat) (d : List Int) (p r : List Nat)
    (B i' x : Nat) (hi' : i' < s.length)
    (hx : ∀ o, o ≤ s.length → x ≠ B + i' * (s.length + 1) + o) :
    (blockCons s d p r B i').filter (enforcedBy (Lit.pos x)) = [] := by
  apply filter_eq_nil_mem
  intro c hc
  rcases blockCons_cases s d p r B i' hi' c hc with ⟨o, ho, e1, e2, h | h⟩ | h
  · rw [h]
    simp only [enforcedBy]
    apply decide_eq_false
    simp only [List.cons.injEq, and_true, Lit.pos.injEq]
    exact fun hh => hx o ho hh.symm
  · rw [h]
    simp only [enforcedBy]
    apply decide_eq_false
    simp only [List.cons.injEq, and_true, Lit.pos.injEq]
    exact fun hh => hx o ho hh.symm
  · rw [h]
    simp only [enforcedBy, Lit.not]
    apply decide_eq_false
    simp

/- The implication segment contributes nothing to a `pos x` filter when
`x` is not the empty literal. -/
theorem filter_impl_of_ne (p : List Nat) (n B x : Nat)
    (hx : B + n * (n + 1) ≠ x) :
    ((List.range n).map (fun i => Constraint.implication
        (Lit.pos (B + n * (n + 1))) ((Lit.pos (p.getD i 0)).not))).filter
      (enforcedBy (Lit.pos x)) = [] := by
  apply filter_eq_nil_mem
  intro c hc
  obtain ⟨i, hi, rfl⟩ := List.mem_map.mp hc
  simp only [enforcedBy]
  apply decide_eq_false
  simp only [Lit.pos.injEq]
  exact hx

/- Filtering `specCons` by a block literal reduces to filtering that
single block. -/
theorem filter_specCons_reduce (s : List Nat) (d : List Int) (p r : List Nat)
    (B i x : Nat) (hi : i < s.length)
    (hx : ∃ o, o ≤ s.length ∧ x = B + i * (s.length + 1) + o) :
    (specCons s d p r B).filter (enforcedBy (Lit.pos x)) =
      (blockCons s d p r B i).filter (enforcedBy (Lit.pos x)) := by
  obtain ⟨o, ho, rfl⟩ := hx
  show ((((List.range s.length).flatMap (blockCons s d p r B)) ++
      (List.range s.length).map (fun i => Constraint.implication
        (Lit.pos (B + s.length * (s.length + 1)))
        ((Lit.pos (p.getD i 0)).not)) ++
      [Constraint.circuit (specArcs p s.length B)]).filter _) = _
  rw [List.filter_append, List.filter_append]
  rw [filter_impl_of_ne p s.length B _
    (emptyVar_ne_blockVar B s.length i o hi ho)]
  have hcirc : ([Constraint.circuit (specArcs p s.length B)]).filter
      (enforcedBy (Lit.pos (B + i * (s.length + 1) + o))) = [] := by
    apply filter_eq_nil_mem
    intro c hc
    simp only [List.mem_singleton] at hc
    rw [hc]
    rfl
  rw [hcirc, filter_flatMap_comm]
  rw [flatMap_single (List.range s.length) _ i
    (List.count_eq_one_of_mem (List.nodup_range s.length)
      (List.mem_range.mpr hi))]
  · simp
  · intro j hj hji
    have hj' : j < s.length := List.mem_range.mp hj
    apply filter_blockCons_of_ne s d p r B j _ hj'
    intro o' ho' heq
    exact absurd (blockVar_inj B s.length i o j o' hi hj' ho ho' heq).1.symm hji


/- Small evaluation facts about `enforcedBy`. -/

theorem enforcedBy_linEq_same (x : Nat) (e1 e2 : LinExpr) :
    enforcedBy (Lit.pos x) (Constraint.linEq e1 e2 [Lit.pos x]) = true := by
  simp [enforcedBy]

theorem enforcedBy_linGe_same (x : Nat) (e1 e2 : LinExpr) :
    enforcedBy (Lit.pos x) (Constraint.linGe e1 e2 [Lit.pos x]) = true := by
  simp [enforcedBy]

theorem enforcedBy_linEq_ne (a x : Nat) (hax : a ≠ x) (e1 e2 : LinExpr) :
    enforcedBy (Lit.pos x) (Constraint.linEq e1 e2 [Lit.pos a]) = false := by
  simp [enforcedBy, hax]

theorem enforcedBy_linGe_ne (a x : Nat) (hax : a ≠ x) (e1 e2 : LinExpr) :
    enforcedBy (Lit.pos x) (Constraint.linGe e1 e2 [Lit.pos a]) = false := by
  simp [enforcedBy, hax]

theorem enforcedBy_self_false (x pv : Nat) (e1 e2 : LinExpr) :
    enforcedBy (Lit.pos x) (Constraint.linEq e1 e2 [(Lit.pos pv).not]) = false := by
  simp [enforcedBy, Lit.not]

/- Exactly the two "first"-literal constraints are conditioned on the
"first" literal. -/
theorem filter_specCons_first (s : List Nat) (d : List Int) (p r : List Nat)
    (B i : Nat) (hi : i < s.length) :
    (specCons s d p r B).filter
        (enforcedBy (Lit.pos (B + i * (s.length + 1)))) =
      [ Constraint.linEq (.var (r.getD i 0)) (.const 0)
          [Lit.pos (B + i * (s.length + 1))],
        Constraint.linEq (.var (s.getD i 0)) (.const 0)
          [Lit.pos (B + i * (s.length + 1))] ] := by
  rw [filter_specCons_reduce s d p r B i _ hi ⟨0, by omega, by omega⟩]
  show (([Constraint.linEq (.var (r.getD i 0)) (.const 0)
      [Lit.pos (B + i * (s.length + 1))],
    Constraint.linEq (.var (s.getD i 0)) (.const 0)
      [Lit.pos (B + i * (s.length + 1))]] ++ _).filter _) = _
  rw [List.filter_append]
  rw [List.filter_cons, List.filter_cons, List.filter_nil,
    enforcedBy_linEq_same, enforcedBy_linEq_same]
  have hinner : ((List.range s.length).flatMap (fun j =>
      if j = i then
        [ Constraint.linEq (.var (r.getD i 0)) (.const (-1))
            [(Lit.pos (p.getD i 0)).not] ]
      else
        [ Constraint.linEq (.var (r.getD j 0))
            (.add (.var (r.getD i 0)) (.const 1))
            [Lit.pos (arcLitVar B s.length i j)],
          Constraint.linGe (.var (s.getD j 0))
            (.add (.var (s.getD i 0)) (.const (d.getD i 0)))
            [Lit.pos (arcLitVar B s.length i j)] ])).filter
      (enforcedBy (Lit.pos (B + i * (s.length + 1)))) = [] := by
    rw [filter_flatMap_comm]
    apply List.flatMap_eq_nil_iff.mpr
    intro j hj
    have hj' : j < s.length := List.mem_range.mp hj
    rcases eq_or_ne j i with rfl | hji
    · rw [if_pos rfl, List.filter_cons, enforcedBy_self_false]
      simp
    · rw [if_neg hji]
      obtain ⟨o, ho2, hon, harc⟩ :=
        arcLitVar_off B s.length i j hi hj' (fun h => hji h.symm)
      have hne : arcLitVar B s.length i j ≠ B + i * (s.length + 1) := by
        rw [harc]; omega
      rw [List.filter_cons, List.filter_cons, List.filter_nil,
        enforcedBy_linEq_ne _ _ hne, enforcedBy_linGe_ne _ _ hne]
      simp
  rw [hinner]
  simp

/- Nothing at all is conditioned on the "last" literal. -/
theorem filter_specCons_last (s : List Nat) (d : List Int) (p r : List Nat)
    (B i : Nat) (hi : i < s.length) :
    (specCons s d p r B).filter
        (enforcedBy (Lit.pos (B + i * (s.length + 1) + 1))) = [] := by
  rw [filter_specCons_reduce s d p r B i _ hi ⟨1, by omega, rfl⟩]
  show (([Constraint.linEq (.var (r.getD i 0)) (.const 0)
      [Lit.pos (B + i * (s.length + 1))],
    Constraint.linEq (.var (s.getD i 0)) (.const 0)
      [Lit.pos (B + i * (s.length + 1))]] ++ _).filter _) = _
  rw [List.filter_append]
  have hb : B + i * (s.length + 1) ≠ B + i * (s.length + 1) + 1 := by omega
  rw [List.filter_cons, List.filter_cons, List.filter_nil,
    enforcedBy_linEq_ne _ _ hb, enforcedBy_linEq_ne _ _ hb]
  have hinner : ((List.range s.length).flatMap (fun j =>
      if j = i then
        [ Constraint.linEq (.var (r.getD i 0)) (.const (-1))
            [(Lit.pos (p.getD i 0)).not] ]
      else
        [ Constraint.linEq (.var (r.getD j 0))
            (.add (.var (r.getD i 0)) (.const 1))
            [Lit.pos (arcLitVar B s.length i j)],
          Constraint.linGe (.var (s.getD j 0))
            (.add (.var (s.getD i 0)) (.const (d.getD i 0)))
            [Lit.pos (arcLitVar B s.length i j)] ])).filter
      (enforcedBy (Lit.pos (B + i * (s.length + 1) + 1))) = [] := by
    rw [filter_flatMap_comm]
    apply List.flatMap_eq_nil_iff.mpr
    intro j hj
    have hj' : j < s.length := List.mem_range.mp hj
    rcases eq_or_ne j i with rfl | hji
    · rw [if_pos rfl, List.filter_cons, enforcedBy_self_false]
      simp
    · rw [if_neg hji]
      obtain ⟨o, ho2, hon, harc⟩ :=
        arcLitVar_off B s.length i j hi hj' (fun h => hji h.symm)
      have hne : arcLitVar B s.length i j ≠ B + i * (s.length + 1) + 1 := by
        rw [harc]; omega
      rw [List.filter_cons, List.filter_cons, List.filter_nil,
        enforcedBy_linEq_ne _ _ hne, enforcedBy_linGe_ne _ _ hne]
      simp
  rw [hinner]
  simp

/- Exactly the rank-successor equality and the start-time inequality are
conditioned on the successor literal of the pair `(i, j)`. -/
theorem filter_specCons_succ (s : List Nat) (d : List Int) (p r : List Nat)
    (B i j : Nat) (hi : i < s.length) (hj : j < s.length) (hij : i ≠ j) :
    (specCons s d p r B).filter
        (enforcedBy (Lit.pos (arcLitVar B s.length i j))) =
      [ Constraint.linEq (.var (r.getD j 0))
          (.add (.var (r.getD i 0)) (.const 1))
          [Lit.pos (arcLitVar B s.length i j)],
        Constraint.linGe (.var (s.getD j 0))
          (.add (.var (s.getD i 0)) (.const (d.getD i 0)))
          [Lit.pos (arcLitVar B s.length i j)] ] := by
  obtain ⟨o, ho2, hon, harc⟩ := arcLitVar_off B s.length i j hi hj hij
  rw [filter_specCons_reduce s d p r B i _ hi ⟨o, hon, harc⟩]
  show (([Constraint.linEq (.var (r.getD i 0)) (.const 0)
      [Lit.pos (B + i * (s.length + 1))],
    Constraint.linEq (.var (s.getD i 0)) (.const 0)
      [Lit.pos (B + i * (s.length + 1))]] ++ _).filter _) = _
  rw [List.filter_append]
  have hb : B + i * (s.length + 1) ≠ arcLitVar B s.length i j := by
    rw [harc]; omega
  have hhead : ([Constraint.linEq (.var (r.getD i 0)) (.const 0)
      [Lit.pos (B + i * (s.length + 1))],
    Constraint.linEq (.var (s.getD i 0)) (.const 0)
      [Lit.pos (B + i * (s.length + 1))]]).filter
      (enforcedBy (Lit.pos (arcLitVar B s.length i j))) = [] := by
    rw [List.filter_cons, List.filter_cons, List.filter_nil,
      enforcedBy_linEq_ne _ _ hb, enforcedBy_linEq_ne _ _ hb]
    simp
  rw [hhead, filter_flatMap_comm]
  rw [flatMap_single (List.range s.length) _ j
    (List.count_eq_one_of_mem (List.nodup_range s.length)
      (List.mem_range.mpr hj))]
  · have hcond : ((if j = i then
        [ Constraint.linEq (.var (r.getD i 0)) (.const (-1))
            [(Lit.pos (p.getD i 0)).not] ]
      else
        [ Constraint.linEq (.var (r.getD j 0))
            (.add (.var (r.getD i 0)) (.const 1))
            [Lit.pos (arcLitVar B s.length i j)],
          Constraint.linGe (.var (s.getD j 0))
            (.add (.var (s.getD i 0)) (.const (d.getD i 0)))
            [Lit.pos (arcLitVar B s.length i j)] ]) : List Constraint) =
        [ Constraint.linEq (.var (r.getD j 0))
            (.add (.var (r.getD i 0)) (.const 1))
            [Lit.pos (arcLitVar B s.length i j)],
          Constraint.linGe (.var (s.getD j 0))
            (.add (.var (s.getD i 0)) (.const (d.getD i 0)))
            [Lit.pos (arcLitVar B s.length i j)] ] := by
      rw [if_neg (fun h => hij h.symm)]
    rw [hcond, List.filter_cons, List.filter_cons, List.filter_nil,
      enforcedBy_linEq_same, enforcedBy_linGe_same]
    simp
  · intro j' hj'mem hj'ne
    have hj'' : j' < s.length := List.mem_range.mp hj'mem
    rcases eq_or_ne j' i with rfl | hji
    · rw [if_pos rfl, List.filter_cons, enforcedBy_self_false]
      simp
    · rw [if_neg hji]
      have hne2 : arcLitVar B s.length i j' ≠ arcLitVar B s.length i j :=
        fun hh => hj'ne (arcLitVar_inj_right B s.length i j' j hj'' hj
          (fun h => hji h.symm) hij hh)
      rw [List.filter_cons, List.filter_cons, List.filter_nil,
        enforcedBy_linEq_ne _ _ hne2, enforcedBy_linGe_ne _ _ hne2]
      simp

/- Case analysis on the arcs of one task block. -/
theorem blockArcs_cases (p : List Nat) (n B i : Nat) (a : ArcT)
    (ha : a ∈ blockArcs p n B i) :
    a = (0, i + 1, Lit.pos (B + i * (n + 1))) ∨
    a = (i + 1, 0, Lit.pos (B + i * (n + 1) + 1)) ∨
    (∃ j, j < n ∧ a = (if j = i then (i + 1, i + 1, (Lit.pos (p.getD i 0)).not)
      else (i + 1, j + 1, Lit.pos (arcLitVar B n i j)))) := by
  simp only [blockArcs, List.mem_cons] at ha
  rcases ha with rfl | ha
  · exact Or.inl rfl
  rcases ha with rfl | ha
  · exact Or.inr (Or.inl rfl)
  obtain ⟨j, hj, hja⟩ := List.mem_map.mp ha
  exact Or.inr (Or.inr ⟨j, List.mem_range.mp hj, hja.symm⟩)

theorem length_flatMap_const {β : Type} (l : List Nat) (f : Nat → List β)
    (c : Nat) (h : ∀ a ∈ l, (f a).length = c) :
    (l.flatMap f).length = l.length * c := by
  induction l with
  | nil => simp
  | cons a t ih =>
    rw [List.flatMap_cons, List.length_append, h a (by simp),
      ih (fun x hx => h x (by simp [hx])), List.length_cons]
    ring

/- The collected arc set has exactly `(n+1)^2` arcs. -/
theorem specArcs_length (p : List Nat) (n B : Nat) :
    (specArcs p n B).length = (n + 1) * (n + 1) := by
  show ((List.range n).flatMap (blockArcs p n B) ++ _).length = _
  rw [List.length_append,
    length_flatMap_const (List.range n) _ (n + 2)
      (fun a _ => by simp [blockArcs])]
  have h1 : (n + 1) * (n + 1) = n * (n + 2) + 1 := by ring
  simp only [List.length_range, List.length_singleton]
  omega

/- The unique arc on each ordered node pair. -/

theorem filter_specArcs_00 (p : List Nat) (n B : Nat) :
    (specArcs p n B).filter
        (fun a => decide (a.1 = 0 ∧ a.2.1 = 0)) =
      [(0, 0, Lit.pos (B + n * (n + 1)))] := by
  show ((List.range n).flatMap (blockArcs p n B) ++ _).filter _ = _
  rw [List.filter_append]
  have hblocks : ((List.range n).flatMap (blockArcs p n B)).filter
      (fun a => decide (a.1 = 0 ∧ a.2.1 = 0)) = [] := by
    apply filter_eq_nil_mem
    intro a ha
    obtain ⟨i, hi, hai⟩ := List.mem_flatMap.mp ha
    rcases blockArcs_cases p n B i a hai with rfl | rfl | ⟨j, hj, rfl⟩
    · exact decide_eq_false (by dsimp only; omega)
    · exact decide_eq_false (by dsimp only; omega)
    · rcases eq_or_ne j i with rfl | hji
      · rw [if_pos rfl]
        exact decide_eq_false (by dsimp only; omega)
      · rw [if_neg hji]
        exact decide_eq_false (by dsimp only; omega)
  rw [hblocks, List.filter_cons, List.filter_nil]
  simp

theorem filter_specArcs_0v (p : List Nat) (n B v : Nat) (hv : v < n) :
    (specArcs p n B).filter
        (fun a => decide (a.1 = 0 ∧ a.2.1 = v + 1)) =
      [(0, v + 1, Lit.pos (B + v * (n + 1)))] := by
  show ((List.range n).flatMap (blockArcs p n B) ++ _).filter _ = _
  rw [List.filter_append]
  have hone : ([(0, 0, Lit.pos (B + n * (n + 1)))] : List ArcT).filter
      (fun a => decide (a.1 = 0 ∧ a.2.1 = v + 1)) = [] := by
    rw [List.filter_cons, List.filter_nil,
      decide_eq_false (by dsimp only; omega)]
    simp
  rw [hone, List.append_nil, filter_flatMap_comm]
  rw [flatMap_single (List.range n) _ v
    (List.count_eq_one_of_mem (List.nodup_range n) (List.mem_range.mpr hv))]
  · simp only [blockArcs]
    rw [List.filter_cons, List.filter_cons,
      decide_eq_true (p := (0, v + 1, Lit.pos (B + v * (n + 1))).1 = 0 ∧
        (0, v + 1, Lit.pos (B + v * (n + 1))).2.1 = v + 1) ⟨rfl, rfl⟩,
      decide_eq_false (by dsimp only; omega)]
    have hmap : (List.map (fun j =>
        if j = v then (v + 1, v + 1, (Lit.pos (p.getD v 0)).not)
        else (v + 1, j + 1, Lit.pos (arcLitVar B n v j))) (List.range n)).filter
        (fun a => decide (a.1 = 0 ∧ a.2.1 = v + 1)) = [] := by
      apply filter_eq_nil_mem
      intro a ha
      obtain ⟨j, hj, hja⟩ := List.mem_map.mp ha
      rcases eq_or_ne j v with rfl | hjv
      · rw [if_pos rfl] at hja
        rw [← hja]
        exact decide_eq_false (by dsimp only; omega)
      · rw [if_neg hjv] at hja
        rw [← hja]
        exact decide_eq_false (by dsimp only; omega)
    rw [hmap]
    simp
  · intro i hi hiv
    apply filter_eq_nil_mem
    intro a ha
    rcases blockArcs_cases p n B i a ha with rfl | rfl | ⟨j, hj, rfl⟩
    · exact decide_eq_false (by dsimp only; omega)
    · exact decide_eq_false (by dsimp only; omega)
    · rcases eq_or_ne j i with rfl | hji
      · rw [if_pos rfl]
        exact decide_eq_false (by dsimp only; omega)
      · rw [if_neg hji]
        exact decide_eq_false (by dsimp only; omega)

theorem filter_specArcs_u0 (p : List Nat) (n B u : Nat) (hu : u < n) :
    (specArcs p n B).filter
        (fun a => decide (a.1 = u + 1 ∧ a.2.1 = 0)) =
      [(u + 1, 0, Lit.pos (B + u * (n + 1) + 1))] := by
  show ((List.range n).flatMap (blockArcs p n B) ++ _).filter _ = _
  rw [List.filter_append]
  have hone : ([(0, 0, Lit.pos (B + n * (n + 1)))] : List ArcT).filter
      (fun a => decide (a.1 = u + 1 ∧ a.2.1 = 0)) = [] := by
    rw [List.filter_cons, List.filter_nil,
      decide_eq_false (by dsimp only; omega)]
    simp
  rw [hone, List.append_nil, filter_flatMap_comm]
  rw [flatMap_single (List.range n) _ u
    (List.count_eq_one_of_mem (List.nodup_range n) (List.mem_range.mpr hu))]
  · simp only [blockArcs]
    rw [List.filter_cons, List.filter_cons,
      decide_eq_false (by dsimp only; omega),
      decide_eq_true (p := (u + 1, 0, Lit.pos (B + u * (n + 1) + 1)).1 = u + 1 ∧
        (u + 1, 0, Lit.pos (B + u * (n + 1) + 1)).2.1 = 0) ⟨rfl, rfl⟩]
    have hmap : (List.map (fun j =>
        if j = u then (u + 1, u + 1, (Lit.pos (p.getD u 0)).not)
        else (u + 1, j + 1, Lit.pos (arcLitVar B n u j))) (List.range n)).filter
        (fun a => decide (a.1 = u + 1 ∧ a.2.1 = 0)) = [] := by
      apply filter_eq_nil_mem
      intro a ha
      obtain ⟨j, hj, hja⟩ := List.mem_map.mp ha
      rcases eq_or_ne j u with rfl | hju
      · rw [if_pos rfl] at hja
        rw [← hja]
        exact decide_eq_false (by dsimp only; omega)
      · rw [if_neg hju] at hja
        rw [← hja]
        exact decide_eq_false (by dsimp only; omega)
    rw [hmap]
    simp
  · intro i hi hiu
    apply filter_eq_nil_mem
    intro a ha
    rcases blockArcs_cases p n B i a ha with rfl | rfl | ⟨j, hj, rfl⟩
    · exact decide_eq_false (by dsimp only; omega)
    · exact decide_eq_false (by dsimp only; omega)
    · rcases eq_or_ne j i with rfl | hji
      · rw [if_pos rfl]
        exact decide_eq_false (by dsimp only; omega)
      · rw [if_neg hji]
        exact decide_eq_false (by dsimp only; omega)

theorem filter_specArcs_uv (p : List Nat) (n B u v : Nat) (hu : u < n)
    (hv : v < n) :
    (specArcs p n B).filter
        (fun a => decide (a.1 = u + 1 ∧ a.2.1 = v + 1)) =
      [if v = u then (u + 1, u + 1, (Lit.pos (p.getD u 0)).not)
       else (u + 1, v + 1, Lit.pos (arcLitVar B n u v))] := by
  show ((List.range n).flatMap (blockArcs p n B) ++ _).filter _ = _
  rw [List.filter_append]
  have hone : ([(0, 0, Lit.pos (B + n * (n + 1)))] : List ArcT).filter
      (fun a => decide (a.1 = u + 1 ∧ a.2.1 = v + 1)) = [] := by
    rw [List.filter_cons, List.filter_nil,
      decide_eq_false (by dsimp only; omega)]
    simp
  rw [hone, List.append_nil, filter_flatMap_comm]
  rw [flatMap_single (List.range n) _ u
    (List.count_eq_one_of_mem (List.nodup_range n) (List.mem_range.mpr hu))]
  · simp only [blockArcs]
    rw [List.filter_cons, List.filter_cons,
      decide_eq_false (by dsimp only; omega),
      decide_eq_false (by dsimp only; omega)]
    rw [List.filter_map]
    have hfr : (List.range n).filter
        ((fun a => decide (a.1 = u + 1 ∧ a.2.1 = v + 1)) ∘ (fun j =>
          if j = u then (u + 1, u + 1, (Lit.pos (p.getD u 0)).not)
          else (u + 1, j + 1, Lit.pos (arcLitVar B n u j)))) = [v] := by
      apply filter_range_single n _ v hv
      intro j hj
      rcases eq_or_ne j u with rfl | hju
      · rw [Function.comp_apply, if_pos rfl]
        constructor
        · intro h
          have h2 := of_decide_eq_true h
          dsimp only at h2
          omega
        · intro h
          apply decide_eq_true
          dsimp only
          omega
      · rw [Function.comp_apply, if_neg hju]
        constructor
        · intro h
          have h2 := of_decide_eq_true h
          dsimp only at h2
          omega
        · intro h
          apply decide_eq_true
          dsimp only
          omega
    rw [hfr]
    rcases eq_or_ne v u with rfl | hvu
    · simp
    · simp [hvu]
  · intro i hi hiu
    apply filter_eq_nil_mem
    intro a ha
    rcases blockArcs_cases p n B i a ha with rfl | rfl | ⟨j, hj, rfl⟩
    · exact decide_eq_false (by dsimp only; omega)
    · exact decide_eq_false (by dsimp only; omega)
    · rcases eq_or_ne j i with rfl | hji
      · rw [if_pos rfl]
        exact decide_eq_false (by dsimp only; omega)
      · rw [if_neg hji]
        exact decide_eq_false (by dsimp only; omega)

/- Semantic consequences of one satisfying assignment: the selected arcs
describe a cycle through the depot visiting exactly the present tasks, and
the posted constraints force the rank of the l-th visited task to be l - 1. -/
theorem circuit_decomp (s : List Nat) (d : List Int) (p r : List Nat)
    (B : Nat) (σ : Nat → Int)
    (hsat : ∀ c ∈ specCons s d p r B, constraintHolds σ c)
    (hbool : ∀ q ∈ p, σ q = 0 ∨ σ q = 1)
    (hp : s.length ≤ p.length) :
    ∃ (mm : Nat) (t : Nat → Nat),
      (∀ l, 1 ≤ l → l < mm →
        t l < s.length ∧ σ (r.getD (t l) 0) = (l : Int) - 1) ∧
      (∀ a b, 1 ≤ a → a < mm → 1 ≤ b → b < mm → t a = t b → a = b) ∧
      (∀ i, i < s.length →
        (σ (p.getD i 0) = 1 ↔ ∃ l, 1 ≤ l ∧ l < mm ∧ t l = i)) := by
  have hcirc := hsat _ (mem_specCons_circuit s d p r B)
  simp only [constraintHolds] at hcirc
  obtain ⟨f, hbij, hfix, hsel, horb⟩ := hcirc
  have hS1 : ∀ i, i < s.length →
      (f (i + 1) = i + 1 ↔ σ (p.getD i 0) = 0) := by
    intro i hi
    have h := hsel _ (mem_specArcs_self p s.length B i hi)
    simpa [litHolds, Lit.not] using h.symm
  have hS2 : ∀ i, i < s.length → f 0 = i + 1 → σ (r.getD i 0) = 0 := by
    intro i hi hf
    have hlit := (hsel _ (mem_specArcs_start p s.length B i hi)).mpr hf
    have hc := hsat _ (mem_specCons_rank0 s d p r B i hi)
    simp only [constraintHolds] at hc
    have h2 := hc (fun l hl => (List.mem_singleton.mp hl) ▸ hlit)
    simpa [LinExpr.eval] using h2
  have hS3 : ∀ i j, i < s.length → j < s.length → i ≠ j →
      f (i + 1) = j + 1 → σ (r.getD j 0) = σ (r.getD i 0) + 1 := by
    intro i j hi hj hij hf
    have hlit := (hsel _ (mem_specArcs_succ p s.length B i j hi hj hij)).mpr hf
    have hc := hsat _ (mem_specCons_succ_eq s d p r B i j hi hj hij)
    simp only [constraintHolds] at hc
    have h2 := hc (fun l hl => (List.mem_singleton.mp hl) ▸ hlit)
    simpa [LinExpr.eval] using h2
  have hS4 : f 0 = 0 → ∀ i, i < s.length → σ (p.getD i 0) = 0 := by
    intro h0 i hi
    have hlit := (hsel _ (mem_specArcs_empty p s.length B)).mpr h0
    have hc := hsat _ (mem_specCons_impl s d p r B i hi)
    simp only [constraintHolds] at hc
    have h2 := hc (by simpa [litHolds] using hlit)
    simpa [litHolds, Lit.not] using h2
  have hSclo : ∀ u, u ≤ s.length → f u ≤ s.length := by
    intro u hu
    by_contra hgt
    push_neg at hgt
    have h1 : f (f u) = f u := by
      apply hfix
      intro a ha
      have h2 := (specArcs_nodes_le p s.length B a ha).1
      omega
    have h3 : f u = u := hbij.injective h1
    omega
  by_cases h0 : f 0 = 0
  · refine ⟨1, fun _ => 0, ?_, ?_, ?_⟩
    · intro l h1 h2
      exact absurd h1 (by omega)
    · intro a b h1 h2 h3 h4 h5
      omega
    · intro i hi
      constructor
      · intro hp1
        have h2 := hS4 h0 i hi
        exact absurd hp1 (by omega)
      · rintro ⟨l, h1, h2, _⟩
        omega
  · have hiter : ∀ l : Nat, f^[l] 0 ≤ s.length := by
      intro l
      induction l with
      | zero => simp
      | succ l ih =>
        rw [Function.iterate_succ_apply']
        exact hSclo _ ih
    have hex : ∃ mm, 0 < mm ∧ f^[mm] 0 = 0 := by
      obtain ⟨a, ha, b, hb, hab, heq⟩ :=
        Finset.exists_ne_map_eq_of_card_lt_of_maps_to
          (s := Finset.range (s.length + 2))
          (t := Finset.range (s.length + 1))
          (f := fun l => f^[l] 0)
          (by simp)
          (fun x _ => Finset.mem_range.mpr
            (by show f^[x] 0 < s.length + 1; have := hiter x; omega))
      rcases Nat.lt_or_ge a b with h | h
      · refine ⟨b - a, by omega, ?_⟩
        have h2 : f^[a] (f^[b - a] 0) = f^[a] 0 := by
          rw [← Function.iterate_add_apply]
          have h3 : a + (b - a) = b := by omega
          rw [h3, heq]
        exact (hbij.injective.iterate a) h2
      · have h' : b < a := by omega
        refine ⟨a - b, by omega, ?_⟩
        have h2 : f^[b] (f^[a - b] 0) = f^[b] 0 := by
          rw [← Function.iterate_add_apply]
          have h3 : b + (a - b) = a := by omega
          rw [h3, ← heq]
        exact (hbij.injective.iterate b) h2
    have hmm := Nat.find_spec hex
    set mm := Nat.find hex with hmmdef
    have hmin : ∀ l, 0 < l → l < mm → f^[l] 0 ≠ 0 := by
      intro l hl hlm hzero
      exact Nat.find_min hex hlm ⟨hl, hzero⟩
    have hinj2 : ∀ a b, a < mm → b < mm → f^[a] 0 = f^[b] 0 → a = b := by
      intro a b ha hb heq2
      by_contra hne
      rcases Nat.lt_or_ge a b with h | h
      · have h2 : f^[a] (f^[b - a] 0) = f^[a] 0 := by
          rw [← Function.iterate_add_apply]
          have h3 : a + (b - a) = b := by omega
          rw [h3, heq2]
        exact hmin (b - a) (by omega) (by omega) ((hbij.injective.iterate a) h2)
      · have h' : b < a := by omega
        have h2 : f^[b] (f^[a - b] 0) = f^[b] 0 := by
          rw [← Function.iterate_add_apply]
          have h3 : b + (a - b) = a := by omega
          rw [h3, ← heq2]
        exact hmin (a - b) (by omega) (by omega) ((hbij.injective.iterate b) h2)
    have hge1 : ∀ l, 1 ≤ l → l < mm → 1 ≤ f^[l] 0 := by
      intro l h1 h2
      have h3 := hmin l (by omega) h2
      omega
    have hrank : ∀ l, 1 ≤ l → l < mm →
        σ (r.getD (f^[l] 0 - 1) 0) = (l : Int) - 1 := by
      intro l
      induction l with
      | zero => intro h1 h2; exact absurd h1 (by omega)
      | succ l ih =>
        intro h1 hsucc
        rcases Nat.eq_zero_or_pos l with rfl | hl
        · have hf1 : f^[1] 0 = f 0 := by
            rw [Function.iterate_one]
          have hfb : f 0 ≤ s.length := hSclo 0 (by omega)
          have hfnz : f 0 ≠ 0 := h0
          have hieq : f 0 = (f 0 - 1) + 1 := by omega
          have h2 := hS2 (f 0 - 1) (by omega) hieq
          rw [hf1]
          rw [h2]
          norm_num
        · have hlm : l < mm := by omega
          have ihv := ih (by omega) hlm
          have hgl := hge1 l (by omega) hlm
          have hgl1 := hge1 (l + 1) (by omega) hsucc
          have hbl := hiter l
          have hbl1 := hiter (l + 1)
          have hfcl : f (f^[l] 0) = f^[l + 1] 0 :=
            (Function.iterate_succ_apply' f l 0).symm
          have hnecl : f^[l] 0 ≠ f^[l + 1] 0 := by
            intro heq2
            have := hinj2 l (l + 1) hlm hsucc heq2
            omega
          have hieq : f^[l] 0 = (f^[l] 0 - 1) + 1 := by omega
          have hjeq : f^[l + 1] 0 = (f^[l + 1] 0 - 1) + 1 := by omega
          have h3 := hS3 (f^[l] 0 - 1) (f^[l + 1] 0 - 1)
            (by omega) (by omega) (by omega)
            (by rw [← hieq, ← hjeq]; exact hfcl)
          rw [h3, ihv]
          push_cast
          ring
    refine ⟨mm, fun l => f^[l] 0 - 1, ?_, ?_, ?_⟩
    · intro l h1 h2
      refine ⟨?_, hrank l h1 h2⟩
      show f^[l] 0 - 1 < s.length
      have h3 := hiter l
      have h4 := hge1 l h1 h2
      omega
    · intro a b h1a h2a h1b h2b heq2
      have heq3 : f^[a] 0 - 1 = f^[b] 0 - 1 := heq2
      have h3 := hge1 a h1a h2a
      have h4 := hge1 b h1b h2b
      exact hinj2 a b h2a h2b (by omega)
    · intro i hi
      have hperiod : ∀ k : Nat, f^[k % mm] 0 = f^[k] 0 := by
        intro k
        conv_rhs => rw [← Nat.mod_add_div k mm]
        rw [Function.iterate_add_apply, Function.iterate_mul,
          Function.iterate_fixed hmm.2]
      constructor
      · intro hp1
        have hfi : f (i + 1) ≠ i + 1 := by
          intro hfe
          have h2 := (hS1 i hi).mp hfe
          omega
        obtain ⟨k, hk⟩ := horb 0 (i + 1) h0 hfi
        have h2 : f^[k % mm] 0 = i + 1 := by rw [hperiod k, hk]
        have h3 : k % mm ≠ 0 := by
          intro hz
          rw [hz, Function.iterate_zero_apply] at h2
          omega
        exact ⟨k % mm, by omega, Nat.mod_lt _ hmm.1,
          by show f^[k % mm] 0 - 1 = i; omega⟩
      · rintro ⟨l, h1, h2, ht⟩
        have ht2 : f^[l] 0 - 1 = i := ht
        have hgl := hge1 l h1 h2
        have hmem : p.getD i 0 ∈ p := by
          have hip : i < p.length := lt_of_lt_of_le hi hp
          rw [List.getD_eq_getElem p 0 hip]
          exact List.getElem_mem hip
        rcases hbool _ hmem with hz | ho
        · exfalso
          have hfe : f (i + 1) = i + 1 := (hS1 i hi).mpr hz
          have hieq : i + 1 = f^[l] 0 := by omega
          have hfcl : f (f^[l] 0) = f^[l + 1] 0 :=
            (Function.iterate_succ_apply' f l 0).symm
          have h4 : f^[l + 1] 0 = f^[l] 0 := by
            rw [← hfcl, ← hieq, hfe]
          rcases Nat.lt_or_ge (l + 1) mm with h5 | h5
          · have := hinj2 (l + 1) l h5 h2 h4
            omega
          · have h6 : l + 1 = mm := by omega
            have h7 : f^[l] 0 ≠ 0 := hmin l (by omega) h2
            rw [← h6] at hmm
            omega
        · exact ho

/- A satisfying assignment of the produced model satisfies every newly
posted constraint. -/
theorem satisfies_specCons (m₀ : Model) (s : List Nat) (d : List Int)
    (p r : List Nat) (M : Model) (σ : Nat → Int)
    (hd : s.length ≤ d.length) (hp : s.length ≤ p.length)
    (hr : s.length ≤ r.length)
    (hok : rank_tasks_with_circuit m₀ s d p r = Except.ok M)
    (hsat : M.satisfiedBy σ) :
    ∀ c ∈ specCons s d p r m₀.numVars, constraintHolds σ c := by
  have hM := rank_tasks_spec m₀ s d p r hd hp hr
  rw [hok] at hM
  injection hM with hME
  intro c hc
  apply hsat
  rw [hME]
  exact List.mem_append_right _ hc

/-- C1: in every satisfying assignment of the model produced by
`rank_tasks_with_circuit` (under the circuit-constraint semantics of the
spec), the multiset of rank values over the tasks whose presence literal
is true is exactly `{0, ..., k-1}` where `k` is the number of present
tasks: a dense 0-based permutation with no gaps and no repeats. -/
theorem C1_rank_permutation (m₀ : Model) (s : List Nat) (d : List Int)
    (p r : List Nat) (M : Model) (σ : Nat → Int)
    (hd : s.length ≤ d.length) (hp : s.length ≤ p.length)
    (hr : s.length ≤ r.length)
    (hok : rank_tasks_with_circuit m₀ s d p r = Except.ok M)
    (hsat : M.satisfiedBy σ)
    (hbool : ∀ q ∈ p, σ q = 0 ∨ σ q = 1) :
    ((((List.range s.length).filter
        (fun i => decide (σ (p.getD i 0) = 1))).map
        (fun i => σ (r.getD i 0)) : List Int) : Multiset Int) =
      (((List.range (((List.range s.length).filter
        (fun i => decide (σ (p.getD i 0) = 1))).length)).map
        (Nat.cast : Nat → Int) : List Int) : Multiset Int) := by
  have hsc := satisfies_specCons m₀ s d p r M σ hd hp hr hok hsat
  obtain ⟨mm, t, hrank, hinj, hpres⟩ :=
    circuit_decomp s d p r m₀.numVars σ hsc hbool hp
  have hmemPL : ∀ i, i ∈ (List.range s.length).filter
      (fun i => decide (σ (p.getD i 0) = 1)) ↔
      (i < s.length ∧ σ (p.getD i 0) = 1) := by
    intro i
    rw [List.mem_filter, List.mem_range, decide_eq_true_eq]
  have hPLnodup : ((List.range s.length).filter
      (fun i => decide (σ (p.getD i 0) = 1))).Nodup :=
    (List.nodup_range s.length).filter _
  have hperm : ((List.range s.length).filter
      (fun i => decide (σ (p.getD i 0) = 1))).map (fun i => σ (r.getD i 0))
      |>.Perm ((List.range (mm - 1)).map (Nat.cast : Nat → Int)) := by
    apply List.perm_of_nodup_nodup_toFinset_eq
    · apply List.Nodup.map_on ?_ hPLnodup
      intro i1 h1 i2 h2 hval
      obtain ⟨hi1, hp1⟩ := (hmemPL i1).mp h1
      obtain ⟨hi2, hp2⟩ := (hmemPL i2).mp h2
      obtain ⟨l1, hl1a, hl1b, hl1c⟩ := (hpres i1 hi1).mp hp1
      obtain ⟨l2, hl2a, hl2b, hl2c⟩ := (hpres i2 hi2).mp hp2
      have hv1 := (hrank l1 hl1a hl1b).2
      have hv2 := (hrank l2 hl2a hl2b).2
      rw [hl1c] at hv1
      rw [hl2c] at hv2
      have hl12 : l1 = l2 := by
        have : (l1 : Int) - 1 = (l2 : Int) - 1 := by
          rw [← hv1, ← hv2, hval]
        omega
      rw [← hl1c, ← hl2c, hl12]
    · apply List.Nodup.map_on ?_ (List.nodup_range (mm - 1))
      intro l1 h1 l2 h2 hval
      have h3 : (l1 : Int) = (l2 : Int) := hval
      omega
    · apply Finset.ext
      intro x
      rw [List.mem_toFinset, List.mem_toFinset, List.mem_map, List.mem_map]
      constructor
      · rintro ⟨i, hiPL, rfl⟩
        obtain ⟨hi, hpi⟩ := (hmemPL i).mp hiPL
        obtain ⟨l, hla, hlb, hlc⟩ := (hpres i hi).mp hpi
        have hv := (hrank l hla hlb).2
        rw [hlc] at hv
        refine ⟨l - 1, List.mem_range.mpr (by omega), ?_⟩
        rw [hv]
        omega
      · rintro ⟨l', hl', rfl⟩
        have hl'2 : l' < mm - 1 := List.mem_range.mp hl'
        have hla : 1 ≤ l' + 1 := by omega
        have hlb : l' + 1 < mm := by omega
        obtain ⟨htl, hvl⟩ := hrank (l' + 1) hla hlb
        refine ⟨t (l' + 1), ?_, ?_⟩
        · apply (hmemPL _).mpr
          exact ⟨htl, (hpres _ htl).mpr ⟨l' + 1, hla, hlb, rfl⟩⟩
        · rw [hvl]
          omega
  have hlen : ((List.range s.length).filter
      (fun i => decide (σ (p.getD i 0) = 1))).length = mm - 1 := by
    have h2 := hperm.length_eq
    simpa using h2
  rw [hlen]
  exact Multiset.coe_eq_coe.mpr hperm

/-- C2: in every satisfying assignment of the model produced by
`rank_tasks_with_circuit`, task `i`'s presence literal is false if and
only if its rank variable has value `-1`. -/
theorem C2_sentinel (m₀ : Model) (s : List Nat) (d : List Int)
    (p r : List Nat) (M : Model) (σ : Nat → Int)
    (hd : s.length ≤ d.length) (hp : s.length ≤ p.length)
    (hr : s.length ≤ r.length)
    (hok : rank_tasks_with_circuit m₀ s d p r = Except.ok M)
    (hsat : M.satisfiedBy σ)
    (hbool : ∀ q ∈ p, σ q = 0 ∨ σ q = 1) :
    ∀ i, i < s.length → (σ (p.getD i 0) = 0 ↔ σ (r.getD i 0) = -1) := by
  have hsc := satisfies_specCons m₀ s d p r M σ hd hp hr hok hsat
  obtain ⟨mm, t, hrank, hinj, hpres⟩ :=
    circuit_decomp s d p r m₀.numVars σ hsc hbool hp
  intro i hi
  constructor
  · intro hz
    have hc := hsc _ (mem_specCons_self s d p r m₀.numVars i hi)
    simp only [constraintHolds] at hc
    have h2 := hc (fun l hl => by
      rw [List.mem_singleton.mp hl]
      simpa [litHolds, Lit.not] using hz)
    simpa [LinExpr.eval] using h2
  · intro hneg
    have hmem : p.getD i 0 ∈ p := by
      have hip : i < p.length := lt_of_lt_of_le hi hp
      rw [List.getD_eq_getElem p 0 hip]
      exact List.getElem_mem hip
    rcases hbool _ hmem with hz | ho
    · exact hz
    · exfalso
      obtain ⟨l, h1, h2, ht⟩ := (hpres i hi).mp ho
      have hv := (hrank l h1 h2).2
      rw [ht, hneg] at hv
      omega

/-- C3: for every ordered pair of distinct tasks `i != j`, the encoder
creates a fresh successor literal, binds it to arc `(i+1, j+1)`, and the
constraints it posts conditioned on that literal are exactly the two
`ranks[j] == ranks[i] + 1` and `starts[j] >= starts[i] + durations[i]`;
the temporal constraint is a lower-bound inequality, not an equality. -/
theorem C3_successor_literal (m₀ : Model) (s : List Nat) (d : List Int)
    (p r : List Nat) (M : Model)
    (hd : s.length ≤ d.length) (hp : s.length ≤ p.length)
    (hr : s.length ≤ r.length)
    (hok : rank_tasks_with_circuit m₀ s d p r = Except.ok M)
    (i j : Nat) (hi : i < s.length) (hj : j < s.length) (hij : i ≠ j) :
    ∃ newCons A ℓ,
      M.constraints = m₀.constraints ++ newCons ∧
      newCons.getLast? = some (Constraint.circuit A) ∧
      m₀.numVars ≤ ℓ ∧
      (i + 1, j + 1, Lit.pos ℓ) ∈ A ∧
      newCons.filter (enforcedBy (Lit.pos ℓ)) =
        [ Constraint.linEq (.var (r.getD j 0))
            (.add (.var (r.getD i 0)) (.const 1)) [Lit.pos ℓ],
          Constraint.linGe (.var (s.getD j 0))
            (.add (.var (s.getD i 0)) (.const (d.getD i 0))) [Lit.pos ℓ] ] := by
  have hM := rank_tasks_spec m₀ s d p r hd hp hr
  rw [hok] at hM
  injection hM with hME
  refine ⟨specCons s d p r m₀.numVars, specArcs p s.length m₀.numVars,
    arcLitVar m₀.numVars s.length i j, ?_, ?_, ?_, ?_, ?_⟩
  · rw [hME]
  · have h2 := specCons_getLast s d p r m₀.numVars []
    simpa using h2
  · unfold arcLitVar
    omega
  · exact mem_specArcs_succ p s.length m₀.numVars i j hi hj hij
  · exact filter_specCons_succ s d p r m₀.numVars i j hi hj hij

/-- C4: for every task `i` the encoder creates a "first" literal bound to
arc `(depot, i+1)` with exactly the two conditioned constraints
`ranks[i] == 0` and the redundant `starts[i] == 0`, and a "last" literal
bound to arc `(i+1, depot)` with no conditioned constraint at all. -/
theorem C4_first_last (m₀ : Model) (s : List Nat) (d : List Int)
    (p r : List Nat) (M : Model)
    (hd : s.length ≤ d.length) (hp : s.length ≤ p.length)
    (hr : s.length ≤ r.length)
    (hok : rank_tasks_with_circuit m₀ s d p r = Except.ok M)
    (i : Nat) (hi : i < s.length) :
    ∃ newCons A fl ll,
      M.constraints = m₀.constraints ++ newCons ∧
      newCons.getLast? = some (Constraint.circuit A) ∧
      m₀.numVars ≤ fl ∧ m₀.numVars ≤ ll ∧ fl ≠ ll ∧
      (0, i + 1, Lit.pos fl) ∈ A ∧
      newCons.filter (enforcedBy (Lit.pos fl)) =
        [ Constraint.linEq (.var (r.getD i 0)) (.const 0) [Lit.pos fl],
          Constraint.linEq (.var (s.getD i 0)) (.const 0) [Lit.pos fl] ] ∧
      (i + 1, 0, Lit.pos ll) ∈ A ∧
      newCons.filter (enforcedBy (Lit.pos ll)) = [] := by
  have hM := rank_tasks_spec m₀ s d p r hd hp hr
  rw [hok] at hM
  injection hM with hME
  refine ⟨specCons s d p r m₀.numVars, specArcs p s.length m₀.numVars,
    m₀.numVars + i * (s.length + 1), m₀.numVars + i * (s.length + 1) + 1,
    ?_, ?_, by omega, by omega, by omega, ?_, ?_, ?_, ?_⟩
  · rw [hME]
  · have h2 := specCons_getLast s d p r m₀.numVars []
    simpa using h2
  · exact mem_specArcs_start p s.length m₀.numVars i hi
  · exact filter_specCons_first s d p r m₀.numVars i hi
  · exact mem_specArcs_end p s.length m₀.numVars i hi
  · exact filter_specCons_last s d p r m₀.numVars i hi

/-- C5: the self-loop arc on node `i+1` carries exactly the negation of
`presences[i]` as its literal, the constraint `ranks[i] == -1` is posted
conditioned on that negation, and for any arc selection consistent with
the literals (boolean-typed presence), the self-loop is selected exactly
when task `i` is absent. -/
theorem C5_selfloop (m₀ : Model) (s : List Nat) (d : List Int)
    (p r : List Nat) (M : Model)
    (hd : s.length ≤ d.length) (hp : s.length ≤ p.length)
    (hr : s.length ≤ r.length)
    (hok : rank_tasks_with_circuit m₀ s d p r = Except.ok M)
    (i : Nat) (hi : i < s.length) :
    ∃ newCons A,
      M.constraints = m₀.constraints ++ newCons ∧
      newCons.getLast? = some (Constraint.circuit A) ∧
      (i + 1, i + 1, (Lit.pos (p.getD i 0)).not) ∈ A ∧
      Constraint.linEq (.var (r.getD i 0)) (.const (-1))
        [(Lit.pos (p.getD i 0)).not] ∈ newCons ∧
      (∀ (σ : Nat → Int) (f : Nat → Nat),
        (∀ a ∈ A, (litHolds σ a.2.2 ↔ f a.1 = a.2.1)) →
        (σ (p.getD i 0) = 0 ∨ σ (p.getD i 0) = 1) →
        (f (i + 1) = i + 1 ↔ ¬ σ (p.getD i 0) = 1)) := by
  have hM := rank_tasks_spec m₀ s d p r hd hp hr
  rw [hok] at hM
  injection hM with hME
  refine ⟨specCons s d p r m₀.numVars, specArcs p s.length m₀.numVars,
    ?_, ?_, ?_, ?_, ?_⟩
  · rw [hME]
  · have h2 := specCons_getLast s d p r m₀.numVars []
    simpa using h2
  · exact mem_specArcs_self p s.length m₀.numVars i hi
  · exact mem_specCons_self s d p r m₀.numVars i hi
  · intro σ f hsel htyped
    have h := hsel _ (mem_specArcs_self p s.length m₀.numVars i hi)
    simp only [litHolds, Lit.not] at h
    constructor
    · intro hfe
      have hz := h.mpr hfe
      omega
    · intro hne
      apply h.mp
      rcases htyped with hz | ho
      · exact hz
      · exact absurd ho hne

/-- C6: after the per-task loop the encoder posts one "empty" literal
bound to the depot self-loop `(0,0)`, one implication
`empty => not presences[i]` per task, and finally exactly one circuit
constraint over the complete collected arc set, which is the last
constraint posted. -/
theorem C6_empty_and_circuit (m₀ : Model) (s : List Nat) (d : List Int)
    (p r : List Nat) (M : Model)
    (hd : s.length ≤ d.length) (hp : s.length ≤ p.length)
    (hr : s.length ≤ r.length)
    (hok : rank_tasks_with_circuit m₀ s d p r = Except.ok M) :
    ∃ body A e,
      M.constraints = m₀.constraints ++ (body ++ [Constraint.circuit A]) ∧
      (∀ c ∈ body, ∀ arcs2, c ≠ Constraint.circuit arcs2) ∧
      m₀.numVars ≤ e ∧
      (0, 0, Lit.pos e) ∈ A ∧
      A.countP (fun a => decide (a.1 = 0 ∧ a.2.1 = 0)) = 1 ∧
      (∀ i, i < s.length → Constraint.implication (Lit.pos e)
        ((Lit.pos (p.getD i 0)).not) ∈ body) := by
  have hM := rank_tasks_spec m₀ s d p r hd hp hr
  rw [hok] at hM
  injection hM with hME
  refine ⟨(List.range s.length).flatMap (blockCons s d p r m₀.numVars) ++
      (List.range s.length).map (fun i => Constraint.implication
        (Lit.pos (m₀.numVars + s.length * (s.length + 1)))
        ((Lit.pos (p.getD i 0)).not)),
    specArcs p s.length m₀.numVars,
    m₀.numVars + s.length * (s.length + 1), ?_, ?_, by omega, ?_, ?_, ?_⟩
  · rw [hME]
    rfl
  · intro c hc arcs2
    rcases List.mem_append.mp hc with h | h
    · obtain ⟨i', hi', hci⟩ := List.mem_flatMap.mp h
      rcases blockCons_cases s d p r m₀.numVars i'
          (List.mem_range.mp hi') c hci with ⟨o, ho, e1, e2, hcc | hcc⟩ | hcc
      · rw [hcc]
        intro hcontra
        exact Constraint.noConfusion hcontra
      · rw [hcc]
        intro hcontra
        exact Constraint.noConfusion hcontra
      · rw [hcc]
        intro hcontra
        exact Constraint.noConfusion hcontra
    · obtain ⟨i', hi', hci⟩ := List.mem_map.mp h
      rw [← hci]
      intro hcontra
      exact Constraint.noConfusion hcontra
  · exact mem_specArcs_empty p s.length m₀.numVars
  · rw [List.countP_eq_length_filter, filter_specArcs_00]
    rfl
  · intro i hi
    apply List.mem_append_right
    apply List.mem_map.mpr
    exact ⟨i, List.mem_range.mpr hi, rfl⟩

/-- C7: the arc set handed to the circuit constraint is the complete
directed graph on the `n+1` nodes `0..n` with explicit self-loops:
exactly `(n+1)^2` triples, all endpoints in `0..n`, and exactly one
triple per ordered pair of nodes. -/
theorem C7_complete_graph (m₀ : Model) (s : List Nat) (d : List Int)
    (p r : List Nat) (M : Model)
    (hd : s.length ≤ d.length) (hp : s.length ≤ p.length)
    (hr : s.length ≤ r.length)
    (hok : rank_tasks_with_circuit m₀ s d p r = Except.ok M) :
    ∃ A, M.constraints.getLast? = some (Constraint.circuit A) ∧
      A.length = (s.length + 1) * (s.length + 1) ∧
      (∀ a ∈ A, a.1 ≤ s.length ∧ a.2.1 ≤ s.length) ∧
      (∀ x y, x ≤ s.length → y ≤ s.length →
        A.countP (fun a => decide (a.1 = x ∧ a.2.1 = y)) = 1) := by
  have hM := rank_tasks_spec m₀ s d p r hd hp hr
  rw [hok] at hM
  injection hM with hME
  refine ⟨specArcs p s.length m₀.numVars, ?_, ?_, ?_, ?_⟩
  · rw [hME]
    exact specCons_getLast s d p r m₀.numVars m₀.constraints
  · exact specArcs_length p s.length m₀.numVars
  · exact specArcs_nodes_le p s.length m₀.numVars
  · intro x y hx hy
    rw [List.countP_eq_length_filter]
    rcases x with _ | u
    · rcases y with _ | v
      · rw [filter_specArcs_00]
        rfl
      · rw [filter_specArcs_0v p s.length m₀.numVars v (by omega)]
        rfl
    · rcases y with _ | v
      · rw [filter_specArcs_u0 p s.length m₀.numVars u (by omega)]
        rfl
      · rw [filter_specArcs_uv p s.length m₀.numVars u v (by omega) (by omega)]
        rfl


/- Truncation invariance: only the first `len(starts)` entries of the
other arrays are ever used. -/

theorem getD_take {α : Type} (l : List α) (n i : Nat) (dv : α) (h1 : i < n) :
    (l.take n).getD i dv = l.getD i dv := by
  rcases Nat.lt_or_ge i l.length with h2 | h2
  · rw [List.getD_eq_getElem _ dv (show i < (l.take n).length by simp; omega),
      List.getD_eq_getElem _ dv h2]
    exact List.getElem_take l
  · rw [List.getD_eq_default _ _ (by simp; omega), List.getD_eq_default _ _ h2]

theorem blockCons_take (s : List Nat) (d : List Int) (p r : List Nat)
    (B i : Nat) (hi : i < s.length) :
    blockCons s (d.take s.length) (p.take s.length) (r.take s.length) B i =
      blockCons s d p r B i := by
  simp only [blockCons]
  rw [getD_take r s.length i 0 hi, getD_take p s.length i 0 hi,
    getD_take d s.length i 0 hi]
  congr 1
  apply flatMap_congr_mem
  intro j hj
  rcases eq_or_ne j i with rfl | hji
  · rw [if_pos rfl, if_pos rfl]
  · rw [if_neg hji, if_neg hji, getD_take r s.length j 0 (List.mem_range.mp hj)]

theorem blockArcs_take (p : List Nat) (n B i : Nat) (hi : i < n) :
    blockArcs (p.take n) n B i = blockArcs p n B i := by
  simp only [blockArcs]
  rw [getD_take p n i 0 hi]

theorem specArcs_take (p : List Nat) (n B : Nat) :
    specArcs (p.take n) n B = specArcs p n B := by
  simp only [specArcs]
  congr 1
  apply flatMap_congr_mem
  intro i hi
  exact blockArcs_take p n B i (List.mem_range.mp hi)

theorem specCons_take (s : List Nat) (d : List Int) (p r : List Nat)
    (B : Nat) :
    specCons s (d.take s.length) (p.take s.length) (r.take s.length) B =
      specCons s d p r B := by
  simp only [specCons]
  have hF : (List.range s.length).flatMap
      (blockCons s (d.take s.length) (p.take s.length) (r.take s.length) B) =
      (List.range s.length).flatMap (blockCons s d p r B) := by
    apply flatMap_congr_mem
    intro i hi
    exact blockCons_take s d p r B i (List.mem_range.mp hi)
  have hI : (List.range s.length).map (fun i => Constraint.implication
      (Lit.pos (B + s.length * (s.length + 1)))
      ((Lit.pos ((p.take s.length).getD i 0)).not)) =
      (List.range s.length).map (fun i => Constraint.implication
      (Lit.pos (B + s.length * (s.length + 1)))
      ((Lit.pos (p.getD i 0)).not)) := by
    apply map_congr_mem
    intro i hi
    rw [getD_take p s.length i 0 (List.mem_range.mp hi)]
  rw [hF, hI, specArcs_take p s.length B]

/-- C9: with zero tasks (all four input sequences empty) the encoder
still completes: the loop bodies run zero times, no implication is
posted, and the only output is one fresh "empty" literal on the depot
self-loop `(0,0)` together with a circuit constraint over that single
arc. -/
theorem C9_empty_input (m₀ : Model) :
    rank_tasks_with_circuit m₀ [] [] [] [] =
      Except.ok ⟨m₀.numVars + 1,
        m₀.constraints ++ [Constraint.circuit [(0, 0, Lit.pos m₀.numVars)]]⟩ := by
  have h := rank_tasks_spec m₀ [] [] [] [] (by simp) (by simp) (by simp)
  simpa [specCons, specArcs] using h

/-- C10: the number of tasks is determined solely by `len(starts)`:
with longer `durations`, `presences` or `ranks` arrays the encoder
behaves exactly as on the arrays truncated to `len(starts)` — the extra
elements are never read and never mentioned in any posted constraint —
and it completes without error. -/
theorem C10_frame (m₀ : Model) (s : List Nat) (d : List Int)
    (p r : List Nat) (hd : s.length ≤ d.length) (hp : s.length ≤ p.length)
    (hr : s.length ≤ r.length) :
    rank_tasks_with_circuit m₀ s d p r =
      rank_tasks_with_circuit m₀ s (d.take s.length) (p.take s.length)
        (r.take s.length) ∧
    ∃ M, rank_tasks_with_circuit m₀ s d p r = Except.ok M := by
  have h1 := rank_tasks_spec m₀ s d p r hd hp hr
  have h2 := rank_tasks_spec m₀ s (d.take s.length) (p.take s.length)
    (r.take s.length) (by simp; omega) (by simp; omega) (by simp; omega)
  refine ⟨?_, ⟨_, h1⟩⟩
  rw [h1, h2, specCons_take]

/-- C8 counterexample: the encoder does not fail fast on contract
violations.  With `durations = [0]` (a non-positive duration) it
completes normally and posts constraints; with `durations` shorter than
`starts` it raises an index error only after constraints have already
been posted to the model. -/
theorem C8_counterexample :
    (∃ M, rank_tasks_with_circuit ⟨3, []⟩ [0] [0] [1] [2] = Except.ok M ∧
      M.constraints ≠ []) ∧
    (∃ m, rank_tasks_with_circuit ⟨6, []⟩ [0, 1] [5] [2, 3] [4, 5] =
      Except.error m ∧ m.constraints ≠ []) := by
  constructor
  · exact ⟨_, rfl, by decide⟩
  · exact ⟨_, rfl, by decide⟩

/-- C8 (amended): `rank_tasks_with_circuit` performs no input
validation and never raises a distinct "invalid encoder input" error:
whenever `durations`, `presences` and `ranks` have at least
`len(starts)` elements it completes normally and posts the full
encoding, even when some `durations[i] <= 0`.  When an array is shorter
than `starts`, the outcome depends on when (and whether) the missing
element is first read: the encoder may fail after constraints have
already been posted (no guarantee against a partially-posted model, as
with two tasks and `durations = [5]`), may fail before any constraint
is posted (as with `ranks = []`), or may even complete without any
error (as with one task and `durations = []`, never read). -/
theorem C8_no_validation (m₀ : Model) (s : List Nat) (d : List Int)
    (p r : List Nat) (hd : s.length ≤ d.length) (hp : s.length ≤ p.length)
    (hr : s.length ≤ r.length) :
    (∃ M, rank_tasks_with_circuit m₀ s d p r = Except.ok M) ∧
    (∃ m, rank_tasks_with_circuit ⟨6, []⟩ [0, 1] [5] [2, 3] [4, 5] =
      Except.error m ∧ m.constraints ≠ []) ∧
    (∃ m, rank_tasks_with_circuit ⟨2, []⟩ [0] [1] [1] [] =
      Except.error m ∧ m.constraints = []) ∧
    (∃ M, rank_tasks_with_circuit ⟨3, []⟩ [0] [] [1] [2] = Except.ok M) :=
  ⟨⟨_, rank_tasks_spec m₀ s d p r hd hp hr⟩, ⟨_, rfl, by decide⟩,
    ⟨_, rfl, by decide⟩, ⟨_, rfl⟩⟩


/- Facts about the witness selection function. -/

theorem funW_invol : ∀ u, funW (funW u) = u := by
  intro u
  by_cases h0 : u = 0
  · subst h0
    rfl
  · by_cases h1 : u = 1
    · subst h1
      rfl
    · have e1 : funW u = u := by
        unfold funW
        rw [if_neg h0, if_neg h1]
      rw [e1, e1]

theorem funW_bij : Function.Bijective funW :=
  Function.Involutive.bijective funW_invol

theorem funW_fixed (u : Nat) (h0 : u ≠ 0) (h1 : u ≠ 1) : funW u = u := by
  unfold funW
  rw [if_neg h0, if_neg h1]

/- The one-task witness model is satisfied by `sigW`. -/
theorem satW : Model.satisfiedBy ⟨6, specCons [0] [1] [1] [2] 3⟩ sigW := by
  intro c hc
  have hc' : c = Constraint.linEq (.var 2) (.const 0) [Lit.pos 3] ∨
      c = Constraint.linEq (.var 0) (.const 0) [Lit.pos 3] ∨
      c = Constraint.linEq (.var 2) (.const (-1)) [Lit.neg 1] ∨
      c = Constraint.implication (Lit.pos 5) (Lit.neg 1) ∨
      c = Constraint.circuit [(0, 1, Lit.pos 3), (1, 0, Lit.pos 4),
        (1, 1, Lit.neg 1), (0, 0, Lit.pos 5)] := by
    have hlist : specCons [0] [1] [1] [2] 3 =
        [ Constraint.linEq (.var 2) (.const 0) [Lit.pos 3],
          Constraint.linEq (.var 0) (.const 0) [Lit.pos 3],
          Constraint.linEq (.var 2) (.const (-1)) [Lit.neg 1],
          Constraint.implication (Lit.pos 5) (Lit.neg 1),
          Constraint.circuit [(0, 1, Lit.pos 3), (1, 0, Lit.pos 4),
            (1, 1, Lit.neg 1), (0, 0, Lit.pos 5)] ] := by rfl
    rw [hlist] at hc
    simpa using hc
  rcases hc' with rfl | rfl | rfl | rfl | rfl
  · exact fun _ => rfl
  · exact fun _ => rfl
  · intro h
    exact absurd (h (Lit.neg 1) (List.mem_singleton.mpr rfl)) (by decide)
  · intro h
    exact absurd h (by decide)
  · refine ⟨funW, funW_bij, ?_, ?_, ?_⟩
    · intro u hu
      have h0 := hu (0, 1, Lit.pos 3) (by simp)
      have h1 := hu (1, 0, Lit.pos 4) (by simp)
      exact funW_fixed u (Ne.symm h0) (Ne.symm h1)
    · decide
    · intro u v hu hv
      have hu2 : u = 0 ∨ u = 1 := by
        by_contra hcon
        push_neg at hcon
        exact hu (funW_fixed u hcon.1 hcon.2)
      have hv2 : v = 0 ∨ v = 1 := by
        by_contra hcon
        push_neg at hcon
        exact hv (funW_fixed v hcon.1 hcon.2)
      rcases hu2 with rfl | rfl <;> rcases hv2 with rfl | rfl
      · exact ⟨0, rfl⟩
      · exact ⟨1, by decide⟩
      · exact ⟨1, by decide⟩
      · exact ⟨0, rfl⟩

/-- Witness for C1: the one-task instance, hypotheses discharged at
concrete input. -/
theorem C1_witness :
    (rank_tasks_with_circuit ⟨3, []⟩ [0] [1] [1] [2] =
      Except.ok ⟨6, specCons [0] [1] [1] [2] 3⟩) ∧
    ((((List.range ([0] : List Nat).length).filter
        (fun i => decide (sigW (([1] : List Nat).getD i 0) = 1))).map
        (fun i => sigW (([2] : List Nat).getD i 0)) : List Int) : Multiset Int) =
      (((List.range (((List.range ([0] : List Nat).length).filter
        (fun i => decide (sigW (([1] : List Nat).getD i 0) = 1))).length)).map
        (Nat.cast : Nat → Int) : List Int) : Multiset Int) :=
  ⟨rfl, C1_rank_permutation ⟨3, []⟩ [0] [1] [1] [2]
    ⟨6, specCons [0] [1] [1] [2] 3⟩ sigW (by decide) (by decide) (by decide)
    rfl satW (by decide)⟩

/-- Witness for C2 at the same concrete instance. -/
theorem C2_witness :
    (rank_tasks_with_circuit ⟨3, []⟩ [0] [1] [1] [2] =
      Except.ok ⟨6, specCons [0] [1] [1] [2] 3⟩) ∧
    (∀ i, i < ([0] : List Nat).length →
      (sigW (([1] : List Nat).getD i 0) = 0 ↔
        sigW (([2] : List Nat).getD i 0) = -1)) :=
  ⟨rfl, C2_sentinel ⟨3, []⟩ [0] [1] [1] [2]
    ⟨6, specCons [0] [1] [1] [2] 3⟩ sigW (by decide) (by decide) (by decide)
    rfl satW (by decide)⟩

/-- Witness for C3 at a concrete two-task instance, pair (0, 1). -/
theorem C3_witness : ∃ newCons A ℓ,
    specCons [0, 1] [7, 8] [2, 3] [4, 5] 6 = newCons ∧
    newCons.getLast? = some (Constraint.circuit A) ∧
    6 ≤ ℓ ∧
    (1, 2, Lit.pos ℓ) ∈ A ∧
    newCons.filter (enforcedBy (Lit.pos ℓ)) =
      [ Constraint.linEq (.var 5) (.add (.var 4) (.const 1)) [Lit.pos ℓ],
        Constraint.linGe (.var 1) (.add (.var 0) (.const 7)) [Lit.pos ℓ] ] :=
  C3_successor_literal ⟨6, []⟩ [0, 1] [7, 8] [2, 3] [4, 5]
    ⟨13, specCons [0, 1] [7, 8] [2, 3] [4, 5] 6⟩
    (by decide) (by decide) (by decide) rfl 0 1
    (by decide) (by decide) (by decide)

/-- Witness for C4 at the same two-task instance, task 0. -/
theorem C4_witness : ∃ newCons A fl ll,
    specCons [0, 1] [7, 8] [2, 3] [4, 5] 6 = newCons ∧
    newCons.getLast? = some (Constraint.circuit A) ∧
    6 ≤ fl ∧ 6 ≤ ll ∧ fl ≠ ll ∧
    (0, 1, Lit.pos fl) ∈ A ∧
    newCons.filter (enforcedBy (Lit.pos fl)) =
      [ Constraint.linEq (.var 4) (.const 0) [Lit.pos fl],
        Constraint.linEq (.var 0) (.const 0) [Lit.pos fl] ] ∧
    (1, 0, Lit.pos ll) ∈ A ∧
    newCons.filter (enforcedBy (Lit.pos ll)) = [] :=
  C4_first_last ⟨6, []⟩ [0, 1] [7, 8] [2, 3] [4, 5]
    ⟨13, specCons [0, 1] [7, 8] [2, 3] [4, 5] 6⟩
    (by decide) (by decide) (by decide) rfl 0 (by decide)

/-- Witness for C5 at the same two-task instance, task 0. -/
theorem C5_witness : ∃ newCons A,
    specCons [0, 1] [7, 8] [2, 3] [4, 5] 6 = newCons ∧
    newCons.getLast? = some (Constraint.circuit A) ∧
    (1, 1, (Lit.pos 2).not) ∈ A ∧
    Constraint.linEq (.var 4) (.const (-1)) [(Lit.pos 2).not] ∈ newCons ∧
    (∀ (σ : Nat → Int) (f : Nat → Nat),
      (∀ a ∈ A, (litHolds σ a.2.2 ↔ f a.1 = a.2.1)) →
      (σ 2 = 0 ∨ σ 2 = 1) →
      (f 1 = 1 ↔ ¬ σ 2 = 1)) :=
  C5_selfloop ⟨6, []⟩ [0, 1] [7, 8] [2, 3] [4, 5]
    ⟨13, specCons [0, 1] [7, 8] [2, 3] [4, 5] 6⟩
    (by decide) (by decide) (by decide) rfl 0 (by decide)

/-- Witness for C6 at the same two-task instance. -/
theorem C6_witness : ∃ body A e,
    specCons [0, 1] [7, 8] [2, 3] [4, 5] 6 = body ++ [Constraint.circuit A] ∧
    (∀ c ∈ body, ∀ arcs2, c ≠ Constraint.circuit arcs2) ∧
    6 ≤ e ∧
    (0, 0, Lit.pos e) ∈ A ∧
    A.countP (fun a => decide (a.1 = 0 ∧ a.2.1 = 0)) = 1 ∧
    (∀ i, i < 2 → Constraint.implication (Lit.pos e)
      ((Lit.pos (([2, 3] : List Nat).getD i 0)).not) ∈ body) :=
  C6_empty_and_circuit ⟨6, []⟩ [0, 1] [7, 8] [2, 3] [4, 5]
    ⟨13, specCons [0, 1] [7, 8] [2, 3] [4, 5] 6⟩
    (by decide) (by decide) (by decide) rfl

/-- Witness for C7 at the same two-task instance. -/
theorem C7_witness : ∃ A,
    (specCons [0, 1] [7, 8] [2, 3] [4, 5] 6).getLast? =
      some (Constraint.circuit A) ∧
    A.length = 9 ∧
    (∀ a ∈ A, a.1 ≤ 2 ∧ a.2.1 ≤ 2) ∧
    (∀ x y, x ≤ 2 → y ≤ 2 →
      A.countP (fun a => decide (a.1 = x ∧ a.2.1 = y)) = 1) :=
  C7_complete_graph ⟨6, []⟩ [0, 1] [7, 8] [2, 3] [4, 5]
    ⟨13, specCons [0, 1] [7, 8] [2, 3] [4, 5] 6⟩
    (by decide) (by decide) (by decide) rfl

/-- Witness for C8 (amended claim) at a concrete zero-duration input. -/
theorem C8_witness :
    (∃ M, rank_tasks_with_circuit ⟨3, []⟩ [0] [0] [1] [2] = Except.ok M) ∧
    (∃ m, rank_tasks_with_circuit ⟨6, []⟩ [0, 1] [5] [2, 3] [4, 5] =
      Except.error m ∧ m.constraints ≠ []) ∧
    (∃ m, rank_tasks_with_circuit ⟨2, []⟩ [0] [1] [1] [] =
      Except.error m ∧ m.constraints = []) ∧
    (∃ M, rank_tasks_with_circuit ⟨3, []⟩ [0] [] [1] [2] = Except.ok M) :=
  C8_no_validation ⟨3, []⟩ [0] [0] [1] [2]
    (by decide) (by decide) (by decide)

/-- Witness for C10 at a concrete input with longer trailing arrays. -/
theorem C10_witness :
    (rank_tasks_with_circuit ⟨3, []⟩ [0] [7, 9] [1, 8] [2, 10] =
      rank_tasks_with_circuit ⟨3, []⟩ [0] [7] [1] [2]) ∧
    ∃ M, rank_tasks_with_circuit ⟨3, []⟩ [0] [7, 9] [1, 8] [2, 10] =
      Except.ok M :=
  C10_frame ⟨3, []⟩ [0] [7, 9] [1, 8] [2, 10]
    (by decide) (by decide) (by decide)

end RankingCircuit
